import Mathlib

/-!
# LOCScanner: a verification development

Shallow embedding of `src/LOCScanner.cpp`:

* the per-file line / word / character scanner of `main`'s `onFile` callback
  (lines 355-403), with its chunked `readFromStream` loop;
* the driver's running totals;
* `LOCScanner::matchFiles` (lines 124-230) together with
  `LOCScanner::doesPathMatchFilters` (lines 233-242).

All definitions come first, the theorems follow.
-/

namespace LOCScanner

/-! ## Machine integers -/

/-- Arithmetic on `uint64_t` / `size_t` counters wraps modulo `2 ^ 64`. -/
def u64 (n : Nat) : Nat := n % 2 ^ 64

/-! ## The scanner of `onFile` -/

/-- A byte of a file (`char c = buffer[i]`, read as `uint8_t`). -/
abbrev Byte := Fin 256

/-- The bytes of the witness file `"a b\nc"`. -/
def sampleABC : List Byte := [97, 32, 98, 10, 99]

/-- The bytes of the whitespace-only witness file `"   \n\n  "`. -/
def sampleBlank : List Byte := [32, 32, 32, 10, 10, 32, 32]

/-- `std::isspace` in the "C" locale (the program never calls `setlocale`):
space, `\t`, `\n`, `\v`, `\f`, `\r`. -/
def isspace (c : Byte) : Bool :=
  c.val == 32 || (9 ≤ c.val && c.val ≤ 13)

/-- The five `uint64_t` locals of the `onFile` callback (lines 360-364):
`loc`, `words`, `chars` are the per-file results, `wordCount` and `charCount`
the pending counters of the current line / current word. -/
structure ScanState where
  loc : Nat
  words : Nat
  chars : Nat
  wordCount : Nat
  charCount : Nat
deriving DecidableEq, Repr

/-- Lines 360-364: all five counters start at zero. -/
def ScanState.init : ScanState :=
  { loc := 0, words := 0, chars := 0, wordCount := 0, charCount := 0 }

/-- Body of the `for` loop, lines 370-388, over an arbitrary counter
arithmetic `w` (`w := u64` is the program, `w := id` is used as an
overflow-free yardstick in the proofs). -/
def scanByteWith (w : Nat → Nat) (s : ScanState) (c : Byte) : ScanState :=
  if c.val = 10 then
    -- lines 372-378
    let wordCount := if s.charCount > 0 then w (s.wordCount + 1) else s.wordCount
    let loc := if wordCount > 0 then w (s.loc + 1) else s.loc
    { loc := loc, words := w (s.words + wordCount), chars := s.chars,
      wordCount := 0, charCount := 0 }
  else if isspace c then
    -- lines 381-384
    let wordCount := if s.charCount > 0 then w (s.wordCount + 1) else s.wordCount
    { loc := s.loc, words := s.words, chars := w (s.chars + s.charCount),
      wordCount := wordCount, charCount := 0 }
  else
    -- line 386
    { s with charCount := w (s.charCount + 1) }

/-- Lines 391-396, the flush after the read loop. -/
def scanFinishWith (w : Nat → Nat) (s : ScanState) : ScanState :=
  let wordCount := if s.charCount > 0 then w (s.wordCount + 1) else s.wordCount
  let chars := w (s.chars + s.charCount)
  let loc := if wordCount > 0 then w (s.loc + 1) else s.loc
  { loc := loc, words := w (s.words + wordCount), chars := chars,
    wordCount := wordCount, charCount := s.charCount }

/-- One iteration of the `for` loop of the program (64-bit counters). -/
def scanByte (s : ScanState) (c : Byte) : ScanState := scanByteWith u64 s c

/-- The `for` loop of lines 369-389 over the `readAmount` bytes of one buffer. -/
def scanBuffer (s : ScanState) (buffer : List Byte) : ScanState :=
  buffer.foldl scanByte s

/-- The flush of lines 391-396 (64-bit counters). -/
def scanFinish (s : ScanState) : ScanState := scanFinishWith u64 s

/-- The scanner run over a sequence of buffers: the per-byte loop buffer after
buffer, the counters carried over, then the flush. -/
def scanChunks (chunks : List (List Byte)) : ScanState :=
  scanFinish (chunks.foldl scanBuffer ScanState.init)

/-- The scanner on a whole byte sequence handed over as one buffer. -/
def scanBytes (bs : List Byte) : ScanState := scanChunks [bs]

/-- The three per-file results `(loc, words, chars)`. -/
def ScanState.result (s : ScanState) : Nat × Nat × Nat := (s.loc, s.words, s.chars)

/-! ### `readFromStream` -/

/-- The part of a `std::ifstream` the scanner depends on: the bytes of the
file, the get position, and whether a read has hit the end of the file
(`failbit`, after which `tellg()` returns `-1`). -/
structure IStream where
  data : List Byte
  pos : Nat
  fail : Bool

/-- The function `streamActualPos`, lines 255-257:
`min(static_cast<size_t>(stream.tellg()), max)`. -/
def streamActualPos (stream : IStream) (max : Nat) : Nat :=
  min (if stream.fail then 2 ^ 64 - 1 else stream.pos) max

/-- The call `stream.read(buffer.data(), numBytes)`: a failed stream reads
nothing; otherwise the next `numBytes` bytes are copied to the front of the
buffer, and a short read sets `failbit`. -/
def IStream.read (stream : IStream) (buffer : List Byte) (numBytes : Nat) :
    IStream × List Byte :=
  if stream.fail then (stream, buffer)
  else
    let got := (stream.data.drop stream.pos).take numBytes
    ({ stream with pos := stream.pos + got.length, fail := decide (got.length < numBytes) },
      got ++ buffer.drop got.length)

/-- The call `buffer.resize(numBytes)`. -/
def resize (buffer : List Byte) (numBytes : Nat) : List Byte :=
  buffer.take numBytes ++ List.replicate (numBytes - buffer.length) 0

/-- The function `readFromStream`, lines 259-264; returns the stream, the
buffer and the reported `readAmount`. -/
def readFromStream (stream : IStream) (buffer : List Byte) (numBytes filesize : Nat) :
    IStream × List Byte × Nat :=
  let startPosition := streamActualPos stream filesize
  let r := stream.read (resize buffer numBytes) numBytes
  (r.1, r.2, streamActualPos r.1 filesize - startPosition)

/-- The `while` loop of lines 368-390; `fuel` bounds the number of reads. -/
def readLoop (numBytes filesize : Nat) :
    Nat → IStream → List Byte → ScanState → ScanState
  | 0, _, _, s => s
  | fuel + 1, stream, buffer, s =>
    let r := readFromStream stream buffer numBytes filesize
    if r.2.2 > 0 then
      readLoop numBytes filesize fuel r.1 r.2.1 (scanBuffer s (r.2.1.take r.2.2))
    else s

/-- The scanner of `onFile` on an opened file with the given content, read
`numBytes` at a time (lines 358-396; the program uses `numBytes = 16384`).
Every read that does not end the loop consumes a byte, so `length + 1` reads
are always enough. -/
def scanStream (numBytes : Nat) (content : List Byte) : ScanState :=
  scanFinish (readLoop numBytes content.length (content.length + 1)
    { data := content, pos := 0, fail := false } [] ScanState.init)

/-! ### What the counters are meant to be -/

/-- Number of non-whitespace bytes. -/
def nonWhitespaceCount (bs : List Byte) : Nat :=
  (bs.filter (fun c => !isspace c)).length

/-- The segments obtained by splitting at every `'\n'` byte; the segment after
the last newline is included. -/
def lineSegments (bs : List Byte) : List (List Byte) :=
  bs.splitOnP (fun c => c.val == 10)

/-- Number of newline-separated segments with at least one non-whitespace byte. -/
def nonBlankLineCount (bs : List Byte) : Nat :=
  ((lineSegments bs).filter (fun seg => seg.any (fun c => !isspace c))).length

/-- Number of maximal runs of consecutive non-whitespace bytes: the non-empty
pieces left when the sequence is cut at every whitespace byte. -/
def wordRunCount (bs : List Byte) : Nat :=
  ((bs.splitOnP isspace).filter (fun run => !run.isEmpty)).length

/-! ### Counters with a pending flag (used by the proofs) -/

/-- Non-blank segments of `bs`, where `pending` says that the segment being
read already holds a non-whitespace byte. -/
def linesFrom : Bool → List Byte → Nat
  | pending, [] => if pending then 1 else 0
  | pending, c :: cs =>
    if c.val = 10 then (if pending then 1 else 0) + linesFrom false cs
    else linesFrom (pending || !isspace c) cs

/-- Word runs of `bs`, where `inWord` says that a run is being read. -/
def wordsFrom : Bool → List Byte → Nat
  | inWord, [] => if inWord then 1 else 0
  | inWord, c :: cs =>
    if isspace c then (if inWord then 1 else 0) + wordsFrom false cs
    else wordsFrom true cs

/-- No counter of the state can overflow within the next few bytes: the three
sums that the scanner forms are bounded by `B`. -/
def ScanState.Within (s : ScanState) (B : Nat) : Prop :=
  s.loc + (if s.wordCount > 0 ∨ s.charCount > 0 then 1 else 0) ≤ B ∧
  s.words + s.wordCount + (if s.charCount > 0 then 1 else 0) ≤ B ∧
  s.chars + s.charCount ≤ B

/-! ## The driver's totals (`main`, lines 348-403) -/

/-- The statement `filesInDirectories[key]++` on a
`std::map<std::filesystem::path, uint64_t>`, kept as an association list with
one pair per key: a missing key is inserted with value 0 and then incremented. -/
def mapIncrement {D : Type} [DecidableEq D] : List (D × Nat) → D → List (D × Nat)
  | [], key => [(key, u64 (0 + 1))]
  | (k, v) :: m, key =>
    if k = key then (k, u64 (v + 1)) :: m else (k, v) :: mapIncrement m key

/-- The variables captured by the `onFile` callback (lines 348-353). The key
type `D` stands for `std::filesystem::path` with its equality. -/
structure Totals (D : Type) where
  filesInDirectories : List (D × Nat)
  totalFiles : Nat
  totalBytes : Nat
  totalLOC : Nat
  totalWords : Nat
  totalChars : Nat

/-- Lines 348-353: an empty map, all totals zero. -/
def Totals.init (D : Type) : Totals D :=
  { filesInDirectories := [], totalFiles := 0, totalBytes := 0, totalLOC := 0,
    totalWords := 0, totalChars := 0 }

/-- The `onFile` callback of `main` (lines 355-403) as far as the totals go.
`parent_path` is `std::filesystem::path::parent_path`; `file` is the content
found when the file is opened, `none` when `if (fileReader)` fails. -/
def onFile {P D : Type} [DecidableEq D] (parent_path : P → D) (t : Totals D)
    (filepath : P) (file : Option (List Byte)) : Totals D :=
  match file with
  | none => t
  | some content =>
    let fileSize := content.length
    let r := scanStream 16384 content
    { filesInDirectories := mapIncrement t.filesInDirectories (parent_path filepath),
      totalFiles := u64 (t.totalFiles + 1),
      totalBytes := u64 (t.totalBytes + fileSize),
      totalLOC := u64 (t.totalLOC + r.loc),
      totalWords := u64 (t.totalWords + r.words),
      totalChars := u64 (t.totalChars + r.chars) }

/-- The totals after the callback has run on each matched file in turn, every
one of them openable. -/
def runDriver {P D : Type} [DecidableEq D] (parent_path : P → D)
    (files : List (P × List Byte)) : Totals D :=
  files.foldl (fun t f => onFile parent_path t f.1 (some f.2)) (Totals.init D)

/-- The number printed as "Directories": `filesInDirectories.size()` (line 442). -/
def Totals.directories {D : Type} (t : Totals D) : Nat := t.filesInDirectories.length

/-- A 10-byte file with two lines, `"int x;\ny;\n"`. -/
def sampleTenBytes : List Byte := [105, 110, 116, 32, 120, 59, 10, 121, 59, 10]

/-- A 5-byte file with one line, `"hello"`. -/
def sampleFiveBytes : List Byte := [104, 101, 108, 108, 111]

/-- The matched files of the witness tree, as path components below the root:
`a.txt` and `sub/b.txt`. -/
def sampleFiles : List (List String × List Byte) :=
  [(["a.txt"], sampleTenBytes), (["sub", "b.txt"], sampleFiveBytes)]


/-! ## Paths -/

/-- A path component (the name of a directory entry), as its characters. -/
abbrev Name := List Char

/-- A `std::filesystem::path` of the file system, kept as the list of its
components. The scan root `startPath` is such a path (an empty `startPath` is
replaced by `"."`, line 126, a path like any other). -/
abbrev Path := List Name

/-- The method `path::parent_path()`: the path without its last component. -/
def parent_path (p : Path) : Path := p.dropLast

/-- The component `".."`. -/
def dotdot : Name := ['.', '.']

/-- The component `"."`. -/
def dot : Name := ['.']

/-- The method `p.lexically_relative(base)` on two canonical paths (their
components are names of entries, never `"."` or `".."`): drop the common
leading components, then one `".."` for every component left in `base`,
followed by what is left of `p`; `"."` when nothing is left. -/
def lexically_relative : Path → Path → Path
  | x :: p, y :: base =>
    if x = y then lexically_relative p base
    else (y :: base).map (fun _ => dotdot) ++ x :: p
  | [], [] => [dot]
  | p, base => base.map (fun _ => dotdot) ++ p

/-- What the program takes from its platform, from the file system and from
`<regex>`:
* `path::preferred_separator` (`'/'` on POSIX, `'\\'` on Windows);
* the call `std::regex_match(str, std::regex(filter.begin(), filter.end()))`
  of line 239, which is `none` when it throws `std::regex_error` (the
  constructor on an ill-formed pattern, or the matching itself);
* `std::filesystem::weakly_canonical`, which resolves the symbolic links on a
  path (the identity where there are none). -/
structure Platform where
  preferred_separator : Char
  regex_match : List Char → List Char → Option Bool
  weakly_canonical : Path → Path

/-- The function `std::filesystem::relative(p, base)`, that is
`weakly_canonical(p).lexically_relative(weakly_canonical(base))`. -/
def Platform.relative (pf : Platform) (p base : Path) : Path :=
  lexically_relative (pf.weakly_canonical p) (pf.weakly_canonical base)

/-- The method `path::string()` of a relative path: the components joined by
the preferred separator. -/
def Platform.string (pf : Platform) (p : Path) : List Char :=
  [pf.preferred_separator].intercalate p

/-- The call `std::regex_replace(str, separatorReplace, "/")` with the pattern
`\\+|\/\/+` read from left to right; `skip = some c` means that the characters
before belong to a match that is a run of `c`, which a further `c` extends.
A backslash starts a match of `\\+`, a slash followed by a slash starts a
match of `\/\/+`; each match is replaced by one `'/'`, every other character
is copied. -/
def separatorReplaceFrom (skip : Option Char) : List Char → List Char
  | [] => []
  | c :: rest =>
    if skip = some c then separatorReplaceFrom skip rest
    else if c = '\\' then '/' :: separatorReplaceFrom (some '\\') rest
    else if c = '/' ∧ rest.head? = some '/' then '/' :: separatorReplaceFrom (some '/') rest
    else c :: separatorReplaceFrom none rest

/-- The separator normalisation of lines 158-160, 186-188, 206-208, 234-236.
Line 160 also passes `match_any`; the two alternatives of the pattern start
with different characters, so the matches are taken to be the same. -/
def separatorReplace (str : List Char) : List Char := separatorReplaceFrom none str

/-- The splitting loop of lines 161-169 (and 209-217): `str` is cut at every
`'/'`; `cur` holds the characters since the last cut. A piece is pushed at
each `'/'`, and at the end of the string when characters remain
(`offset < str.size()`). -/
def splitFilenamesFrom (cur : List Char) : List Char → List (List Char)
  | [] => if cur.isEmpty then [] else [cur]
  | c :: rest =>
    if c = '/' then cur :: splitFilenamesFrom [] rest
    else splitFilenamesFrom (cur ++ [c]) rest

/-- The vector `filenames` built by lines 161-169. -/
def splitFilenames (str : List Char) : List (List Char) := splitFilenamesFrom [] str

/-- Whether a string has two `'/'` next to each other. -/
def hasAdjacentSlashes : List Char → Bool
  | [] => false
  | c :: rest => (c == '/' && rest.head? == some '/') || hasAdjacentSlashes rest

/-- What a symbolic link resolves to: nothing (a dangling link), a file that
is regular or not, or a directory that can be read or not. -/
inductive LinkTarget where
  | dangling
  | file (regular : Bool)
  | directory (readable : Bool)
deriving DecidableEq, Repr

/-- A directory tree as the iterator finds it, the entries of a directory in
the order in which they are reported:
* a file that is regular or not (socket, fifo, device);
* a directory, which can be read or not (permission denied), with its entries;
* a symbolic link with what it resolves to and, for a link to a directory,
  the entries of that directory. -/
inductive Node where
  | file (name : Name) (regular : Bool)
  | dir (name : Name) (readable : Bool) (children : List Node)
  | link (name : Name) (target : LinkTarget) (children : List Node)

/-- The name of an entry. -/
def Node.name : Node → Name
  | .file name _ => name
  | .dir name _ _ => name
  | .link name _ _ => name

/-- What the loop reads from the iterator at one position: `itr->path()`,
`itr->is_directory()`, `itr->is_regular_file()` (both follow a symbolic
link) and `itr.depth()`. -/
structure DirEntry where
  path : Path
  isDirectory : Bool
  isRegularFile : Bool
  depth : Nat
deriving DecidableEq, Repr

/-- The position of the iterator at an entry of the directory `parent`. -/
def Node.entry (parent : Path) (depth : Nat) : Node → DirEntry
  | .file name regular =>
    { path := parent ++ [name], isDirectory := false, isRegularFile := regular,
      depth := depth }
  | .dir name _ _ =>
    { path := parent ++ [name], isDirectory := true, isRegularFile := false,
      depth := depth }
  | .link name target _ =>
    { path := parent ++ [name],
      isDirectory := target == LinkTarget.directory true ||
        target == LinkTarget.directory false,
      isRegularFile := target == LinkTarget.file true,
      depth := depth }

mutual
/-- The positions that `std::filesystem::recursive_directory_iterator` takes
at and below one entry, in pre-order, when the loop body calls
`disable_recursion_pending()` under the condition of line 144
(`maxDepth > 0 && is_directory() && depth() >= maxDepth`). The iterator
descends into a directory that can be read (`skip_permission_denied` passes
over the others) and, when `follow_directory_symlink` is set (`follow`, lines
133-135), into a symbolic link to such a directory. -/
def entriesOfNode (follow : Bool) (maxDepth : Nat) (parent : Path) (depth : Nat) :
    Node → List DirEntry
  | .file name regular => [(Node.file name regular).entry parent depth]
  | .dir name readable children =>
    (Node.dir name readable children).entry parent depth ::
      (if (maxDepth > 0 ∧ depth ≥ maxDepth) ∨ readable = false then []
       else entriesOfList follow maxDepth (parent ++ [name]) (depth + 1) children)
  | .link name target children =>
    (Node.link name target children).entry parent depth ::
      (if (maxDepth > 0 ∧ depth ≥ maxDepth) ∨
          (follow && target == LinkTarget.directory true) = false then []
       else entriesOfList follow maxDepth (parent ++ [name]) (depth + 1) children)
/-- The positions of the iterator within a list of sibling entries. -/
def entriesOfList (follow : Bool) (maxDepth : Nat) (parent : Path) (depth : Nat) :
    List Node → List DirEntry
  | [] => []
  | n :: ns =>
    entriesOfNode follow maxDepth parent depth n ++
      entriesOfList follow maxDepth parent depth ns
end

mutual
/-- Every position the iterator reaches at and below an entry when it is left
to itself, in pre-order, with its depth. -/
def allEntriesOfNode (follow : Bool) (parent : Path) (depth : Nat) : Node → List DirEntry
  | .file name regular => [(Node.file name regular).entry parent depth]
  | .dir name readable children =>
    (Node.dir name readable children).entry parent depth ::
      (if readable = false then []
       else allEntriesOfList follow (parent ++ [name]) (depth + 1) children)
  | .link name target children =>
    (Node.link name target children).entry parent depth ::
      (if (follow && target == LinkTarget.directory true) = false then []
       else allEntriesOfList follow (parent ++ [name]) (depth + 1) children)
/-- Every position the iterator reaches within a list of siblings. -/
def allEntriesOfList (follow : Bool) (parent : Path) (depth : Nat) :
    List Node → List DirEntry
  | [] => []
  | n :: ns => allEntriesOfNode follow parent depth n ++ allEntriesOfList follow parent depth ns
end

mutual
/-- The number of regular files in and below an entry of a tree; a symbolic
link is not a regular file, and what lies behind it is not part of the tree. -/
def Node.regularCount : Node → Nat
  | .file _ regular => if regular then 1 else 0
  | .dir _ _ children => regularCount children
  | .link _ _ _ => 0
/-- The number of regular files of a tree. -/
def regularCount : List Node → Nat
  | [] => 0
  | n :: ns => n.regularCount + regularCount ns
end

mutual
/-- The number of entries at and below a node that the iterator can reach and
that are regular files to it: regular files, and symbolic links that resolve
to regular files, inside directories that can be read; those behind a link to
a directory only when links are followed. -/
def Node.reachableRegularCount (follow : Bool) : Node → Nat
  | .file _ regular => if regular then 1 else 0
  | .dir _ readable children =>
    if readable = false then 0 else reachableRegularCount follow children
  | .link _ target children =>
    (if target = LinkTarget.file true then 1 else 0) +
      (if (follow && target == LinkTarget.directory true) = false then 0
       else reachableRegularCount follow children)
/-- The number of reachable regular-file entries of a tree. -/
def reachableRegularCount (follow : Bool) : List Node → Nat
  | [] => 0
  | n :: ns => n.reachableRegularCount follow + reachableRegularCount follow ns
end

mutual
/-- Whether there is no symbolic link and no unreadable directory at or below
the node. -/
def Node.plain : Node → Bool
  | .file _ _ => true
  | .dir _ readable children => readable && plainList children
  | .link _ _ _ => false
/-- Whether a tree has no symbolic link and no unreadable directory. -/
def plainList : List Node → Bool
  | [] => true
  | n :: ns => n.plain && plainList ns
end

end LOCScanner

/-! ## `class LOCScanner` -/

/-- The data members of `class LOCScanner` (lines 245-252). Of each callback
only whether it has been registered matters to `matchFiles`. -/
structure LOCScanner where
  startPath : LOCScanner.Path
  inclusionFilters : List (List Char)
  exclusionFilters : List (List Char)
  bFollowLinks : Bool
  maxDepth : Nat
  preDirectoryCallback : Bool
  postDirectoryCallback : Bool
  fileCallback : Bool

namespace LOCScanner

/-- A call of one of the three callbacks, with the path it is given. The file
callback receives the normalised relative path, kept as its string. -/
inductive Event where
  | preDirectory (path : Path)
  | postDirectory (path : Path)
  | file (relative : List Char)
deriving DecidableEq, Repr

/-- The locals of `matchFiles` that change in the loop (`matched` is the
counter `matches` of the source), the calls made so far, oldest first, and
whether an exception (`std::regex_error`) has left the function. -/
structure WalkState where
  currentDirectory : Path
  matched : Nat
  events : List Event
  thrown : Bool

/-- The method `doesPathMatchFilters`, lines 233-242: the filters are compiled
and tried in order; `none` when `std::regex_error` is thrown before a filter
has matched. -/
def doesPathMatchFilters (pf : Platform) (path : List Char) :
    List (List Char) → Option Bool
  | [] => some false
  | filter :: filters =>
    match pf.regex_match (separatorReplace path) filter with
    | none => none
    | some true => some true
    | some false => doesPathMatchFilters pf path filters

/-- The loop of lines 171-176 (and 219-224): for every `".."` among the
filenames call the post-directory callback on the current directory and move
the current directory to its parent. -/
def leaveLoop (st : WalkState) (filenames : List (List Char)) : WalkState :=
  filenames.foldl (fun st filename =>
    if filename = dotdot then
      { st with events := st.events ++ [Event.postDirectory st.currentDirectory],
                currentDirectory := parent_path st.currentDirectory }
    else st) st

/-- Lines 149-179: the bookkeeping of the current directory, done only when a
post-directory callback is registered. -/
def trackDirectory (pf : Platform) (this : LOCScanner) (st : WalkState) (e : DirEntry) :
    WalkState :=
  if this.postDirectoryCallback then
    let dir := if e.isDirectory then e.path else parent_path e.path
    let str := separatorReplace (pf.string (pf.relative dir st.currentDirectory))
    let st' := leaveLoop st (splitFilenames str)
    { st' with currentDirectory := dir }
  else st

/-- The normalised relative path of an entry, lines 185-189. -/
def relativeString (pf : Platform) (this : LOCScanner) (e : DirEntry) : List Char :=
  separatorReplace (pf.string (pf.relative e.path this.startPath))

/-- Lines 191-199: whether the file callback is called on the path; `none`
when `doesPathMatchFilters` throws. -/
def passesFilters (pf : Platform) (this : LOCScanner) (relative : List Char) : Option Bool :=
  match doesPathMatchFilters pf relative this.exclusionFilters with
  | none => none
  | some true => some false
  | some false =>
    if this.inclusionFilters.length = 0 then some true
    else doesPathMatchFilters pf relative this.inclusionFilters

/-- The body of the `for` loop of `matchFiles`, lines 144-200, at one position
of the iterator; after an exception nothing more happens. -/
def visit (pf : Platform) (this : LOCScanner) (st : WalkState) (e : DirEntry) : WalkState :=
  if st.thrown then st
  else
    let st1 := trackDirectory pf this st e
    if e.isDirectory then
      if this.preDirectoryCallback then
        { st1 with events := st1.events ++ [Event.preDirectory e.path] }
      else st1
    else if e.isRegularFile && this.fileCallback then
      let relative := relativeString pf this e
      match passesFilters pf this relative with
      | none => { st1 with thrown := true }
      | some true =>
        { st1 with events := st1.events ++ [Event.file relative],
                   matched := u64 (st1.matched + 1) }
      | some false => st1
    else st1

/-- Whether the loop body (lines 184-199) calls the file callback at an entry. -/
def fileCalled (pf : Platform) (this : LOCScanner) (e : DirEntry) : Bool :=
  !e.isDirectory && e.isRegularFile && this.fileCallback &&
    passesFilters pf this (relativeString pf this e) == some true

/-- Whether the loop body (lines 184-199) throws at an entry. -/
def fileThrows (pf : Platform) (this : LOCScanner) (e : DirEntry) : Bool :=
  !e.isDirectory && e.isRegularFile && this.fileCallback &&
    passesFilters pf this (relativeString pf this e) == none

/-- Lines 203-227, after the loop; not reached after an exception. -/
def leaveRemaining (pf : Platform) (this : LOCScanner) (st : WalkState) : WalkState :=
  if st.thrown then st
  else if this.postDirectoryCallback then
    let str := separatorReplace (pf.string (pf.relative this.startPath st.currentDirectory))
    let st' := leaveLoop st (splitFilenames str)
    { st' with events := st'.events ++ [Event.postDirectory this.startPath] }
  else st

/-- The positions the loop of `matchFiles` goes through for a root directory
with the given entries. -/
def visited (this : LOCScanner) (root : List Node) : List DirEntry :=
  entriesOfList this.bFollowLinks this.maxDepth this.startPath 0 root

/-- Every position the iterator would reach in the root directory without a
depth limit. -/
def reachable (this : LOCScanner) (root : List Node) : List DirEntry :=
  allEntriesOfList this.bFollowLinks this.startPath 0 root

/-- The state of `matchFiles` when it is left, for a root on which the
iterator could be constructed. -/
def walk (pf : Platform) (this : LOCScanner) (root : List Node) : WalkState :=
  let st0 : WalkState :=
    { currentDirectory := this.startPath, matched := 0,
      events := if this.preDirectoryCallback then [Event.preDirectory this.startPath] else [],
      thrown := false }
  leaveRemaining pf this ((visited this root).foldl (visit pf this) st0)

/-- How a call of `matchFiles` ends: the value returned, `none` when an
exception leaves the function, and the callback calls made until then. -/
structure Outcome where
  returned : Option Nat
  events : List Event
deriving DecidableEq, Repr

/-- The method `matchFiles`, lines 124-230. `root` is `none` when the
constructor of the iterator fails on the start path (it does not exist, it is
not a directory); then the function returns 0 if it was given an error code
(`ec`), and the constructor throws otherwise. A start directory that exists
but cannot be read is an empty root (`skip_permission_denied`). -/
def matchFiles (pf : Platform) (this : LOCScanner) (root : Option (List Node)) (ec : Bool) :
    Outcome :=
  match root with
  | none => { returned := if ec then some 0 else none, events := [] }
  | some entries =>
    { returned := if (walk pf this entries).thrown then none
                  else some (walk pf this entries).matched,
      events := (walk pf this entries).events }

/-- The paths the file callback was called on, in order. -/
def fileCalls : List Event → List (List Char)
  | [] => []
  | Event.file relative :: es => relative :: fileCalls es
  | _ :: es => fileCalls es

/-- The paths the pre-directory callback was called on, in order. -/
def preCalls : List Event → List Path
  | [] => []
  | Event.preDirectory p :: es => p :: preCalls es
  | _ :: es => preCalls es

/-- The enter and leave calls replayed on a stack of open directories: an
enter pushes its path, a leave must name the innermost open directory and
pops it. `none` when a leave does not. -/
def replay : List Path → List Event → Option (List Path)
  | stack, [] => some stack
  | stack, Event.preDirectory p :: es => replay (p :: stack) es
  | [], Event.postDirectory _ :: _ => none
  | q :: stack, Event.postDirectory p :: es => if p = q then replay stack es else none
  | stack, Event.file _ :: es => replay stack es

/-! ## Filters, as the specification reads them -/

/-- Whether the string full-matches the filter. -/
def fullMatches (pf : Platform) (str filter : List Char) : Bool :=
  pf.regex_match str filter == some true

/-- Whether the filter lists accept a path: it full-matches no exclusion
filter, and the inclusion list is empty or it full-matches an inclusion
filter. -/
def accepts (pf : Platform) (this : LOCScanner) (p : List Char) : Bool :=
  !this.exclusionFilters.any (fun f => fullMatches pf p f) &&
    (this.inclusionFilters.isEmpty || this.inclusionFilters.any (fun f => fullMatches pf p f))

/-- Every filter of the scanner is a well-formed pattern, one that can be
compiled and matched against any string without `std::regex_error`. -/
def WellFormedFilters (pf : Platform) (this : LOCScanner) : Prop :=
  ∀ f ∈ this.exclusionFilters ++ this.inclusionFilters,
    ∀ str, (pf.regex_match str f).isSome = true

/-! ## Examples -/

/-- POSIX without symbolic links, with a matcher that is right for patterns
without metacharacters (such a pattern matches exactly itself) and that takes
`(` for the ill-formed pattern it is. -/
def posix : Platform :=
  { preferred_separator := '/',
    regex_match := fun str filter =>
      if filter = ['('] then none else some (str == filter),
    weakly_canonical := fun p => p }

/-- A start path for the examples, `/srv`. -/
def sampleStart : Path := ["srv".toList]

/-- A scanner on `sampleStart` with all three callbacks registered, no
filters, no depth limit, links not followed. -/
def sampleScanner : LOCScanner :=
  { startPath := sampleStart, inclusionFilters := [], exclusionFilters := [],
    bFollowLinks := false, maxDepth := 0,
    preDirectoryCallback := true, postDirectoryCallback := true, fileCallback := true }

/-- A POSIX tree with the directory `a` that holds a regular file named `\b`. -/
def backslashFileTree : List Node :=
  [Node.dir "a".toList true [Node.file "\\b".toList true]]

/-- A POSIX tree with one empty directory named `..\x`. -/
def backslashDirTree : List Node := [Node.dir "..\\x".toList true []]

/-- The scanner of the examples with the exclusion filter `a//b`. -/
def excludingScanner : LOCScanner :=
  { sampleScanner with exclusionFilters := ["a//b".toList] }

/-- The scanner of the examples with the exclusion filter `a/b`. -/
def slashScanner : LOCScanner :=
  { sampleScanner with exclusionFilters := ["a/b".toList] }

/-- A component that the normalisation and the splitting leave in one piece:
not empty and free of `'/'` and `'\\'`. -/
def SepFree (n : Name) : Prop := n ≠ [] ∧ '/' ∉ n ∧ '\\' ∉ n

/-- A name without path separators in it: not empty, not `"."`, not `".."`,
and free of `'/'` and `'\\'`. -/
def CleanName (n : Name) : Prop :=
  n ≠ [] ∧ n ≠ dot ∧ n ≠ dotdot ∧ '/' ∉ n ∧ '\\' ∉ n

instance decCleanName (n : Name) : Decidable (CleanName n) :=
  inferInstanceAs (Decidable (n ≠ [] ∧ n ≠ dot ∧ n ≠ dotdot ∧ '/' ∉ n ∧ '\\' ∉ n))

mutual
/-- Whether the node is a file (of any name), or a directory with a clean name
whose entries, if it can be read, are well named in turn; a symbolic link is
not. -/
def Node.wellNamed : Node → Bool
  | .file _ _ => true
  | .dir name readable children =>
    decide (CleanName name) && (!readable || wellNamedList children)
  | .link _ _ _ => false
/-- Whether a tree has no symbolic links, clean directory names, and distinct
names among the entries of each directory (as the entries of a directory
always have). -/
def wellNamedList : List Node → Bool
  | [] => true
  | n :: ns => n.wellNamed && ns.all (fun m => m.name != n.name) && wellNamedList ns
end

/-- The directories that are open when the current directory is
`start ++ c`: that directory, its parents up to `start`, innermost first. -/
def openStack (start : Path) : List Name → List Path
  | [] => [start]
  | x :: c => (openStack (start ++ [x]) c) ++ [start]

/-- The state of the loop fits the location `start ++ c`: nothing has been
thrown, the current directory is that location and the calls made so far
leave exactly its chain of directories open. -/
def Tracks (start : Path) (st : WalkState) (c : List Name) : Prop :=
  st.thrown = false ∧ st.currentDirectory = start ++ c ∧
    replay [] st.events = some (openStack start c)

/-! ## Theorems about the scanner -/

theorem u64_of_lt {n : Nat} (h : n < 2 ^ 64) : u64 n = n := Nat.mod_eq_of_lt h

theorem within_init : ScanState.init.Within 0 := by
  simp [ScanState.Within, ScanState.init]

theorem scanByteWith_within (s : ScanState) (c : Byte) (B : Nat) (h : s.Within B) :
    (scanByteWith id s c).Within (B + 1) := by
  obtain ⟨h1, h2, h3⟩ := h
  unfold scanByteWith ScanState.Within
  simp only [id]
  split_ifs <;> simp_all <;> omega

theorem scanByteWith_u64 (s : ScanState) (c : Byte) (B : Nat) (h : s.Within B)
    (hB : B + 1 < 2 ^ 64) : scanByteWith u64 s c = scanByteWith id s c := by
  obtain ⟨h1, h2, h3⟩ := h
  have e1 : u64 (s.wordCount + 1) = s.wordCount + 1 := u64_of_lt (by omega)
  have e2 : u64 (s.charCount + 1) = s.charCount + 1 := u64_of_lt (by omega)
  have e3 : u64 (s.chars + s.charCount) = s.chars + s.charCount := u64_of_lt (by omega)
  have e4 : u64 (s.loc + 1) = s.loc + 1 := by
    apply u64_of_lt
    split_ifs at h1 <;> omega
  have e5 : u64 (s.words + s.wordCount) = s.words + s.wordCount := u64_of_lt (by omega)
  have e6 : u64 (s.words + (s.wordCount + 1)) = s.words + (s.wordCount + 1) := by
    apply u64_of_lt
    split_ifs at h2 <;> omega
  unfold scanByteWith
  simp only [id, e1, e2, e3, e4, e5]
  split_ifs <;> simp_all

theorem foldl_scanByteWith_within (bs : List Byte) (s : ScanState) (B : Nat)
    (h : s.Within B) : (bs.foldl (scanByteWith id) s).Within (B + bs.length) := by
  induction bs generalizing s B with
  | nil => simpa using h
  | cons c cs ih =>
    have := ih _ _ (scanByteWith_within s c B h)
    simpa [List.foldl_cons, Nat.add_assoc, Nat.add_comm 1] using this

theorem scanBuffer_eq_ideal (bs : List Byte) (s : ScanState) (B : Nat)
    (h : s.Within B) (hB : B + bs.length < 2 ^ 64) :
    scanBuffer s bs = bs.foldl (scanByteWith id) s := by
  induction bs generalizing s B with
  | nil => rfl
  | cons c cs ih =>
    have hlen : B + 1 + cs.length < 2 ^ 64 := by
      simp only [List.length_cons] at hB; omega
    have hstep : scanByte s c = scanByteWith id s c :=
      scanByteWith_u64 s c B h (by omega)
    have := ih (scanByteWith id s c) (B + 1) (scanByteWith_within s c B h) hlen
    simp only [scanBuffer, List.foldl_cons, hstep] at this ⊢
    exact this

theorem scanFinish_eq_ideal (s : ScanState) (B : Nat) (h : s.Within B)
    (hB : B < 2 ^ 64) : scanFinish s = scanFinishWith id s := by
  obtain ⟨h1, h2, h3⟩ := h
  have e3 : u64 (s.chars + s.charCount) = s.chars + s.charCount := u64_of_lt (by omega)
  unfold scanFinish scanFinishWith
  simp only [id, e3]
  by_cases hc : s.charCount > 0
  · have e1 : u64 (s.wordCount + 1) = s.wordCount + 1 := by
      apply u64_of_lt; simp [hc] at h2; omega
    have e4 : u64 (s.loc + 1) = s.loc + 1 := by
      apply u64_of_lt; simp [hc] at h1; omega
    have e6 : u64 (s.words + (s.wordCount + 1)) = s.words + (s.wordCount + 1) := by
      apply u64_of_lt; simp [hc] at h2; omega
    simp [hc, e1, e4, e6]
  · have e5 : u64 (s.words + s.wordCount) = s.words + s.wordCount := by
      apply u64_of_lt; simp [hc] at h2; omega
    by_cases hw : s.wordCount > 0
    · have e4 : u64 (s.loc + 1) = s.loc + 1 := by
        apply u64_of_lt; simp [hw] at h1; omega
      simp [hc, hw, e4, e5]
    · simp [hc, hw, e5]

/-- On a sequence shorter than `2 ^ 64` bytes no counter of the scanner wraps. -/
theorem scanBytes_eq_ideal (bs : List Byte) (h : bs.length < 2 ^ 64) :
    scanBytes bs = scanFinishWith id (bs.foldl (scanByteWith id) ScanState.init) := by
  have h1 := scanBuffer_eq_ideal bs ScanState.init 0 within_init (by simpa using h)
  have h2 := foldl_scanByteWith_within bs ScanState.init 0 within_init
  simp only [Nat.zero_add] at h2
  simp only [scanBytes, scanChunks, List.foldl_cons, List.foldl_nil, h1]
  exact scanFinish_eq_ideal _ _ h2 h

theorem ideal_loc (bs : List Byte) (s : ScanState) :
    (scanFinishWith id (bs.foldl (scanByteWith id) s)).loc =
      s.loc + linesFrom (decide (s.wordCount > 0 ∨ s.charCount > 0)) bs := by
  induction bs generalizing s with
  | nil =>
    simp only [List.foldl_nil, scanFinishWith, id, linesFrom]
    by_cases hc : s.charCount > 0 <;> by_cases hw : s.wordCount > 0 <;> simp [hc, hw]
  | cons c cs ih =>
    rw [List.foldl_cons, ih]
    unfold scanByteWith
    simp only [id, linesFrom]
    by_cases h10 : c.val = 10
    · by_cases hc : s.charCount > 0 <;> by_cases hw : s.wordCount > 0 <;>
        simp [h10, hc, hw, Nat.add_assoc]
    · by_cases hsp : isspace c = true
      · by_cases hc : s.charCount > 0 <;> by_cases hw : s.wordCount > 0 <;>
          simp [h10, hsp, hc, hw]
      · simp [h10, hsp]

theorem ideal_words (bs : List Byte) (s : ScanState) :
    (scanFinishWith id (bs.foldl (scanByteWith id) s)).words =
      s.words + s.wordCount + wordsFrom (decide (s.charCount > 0)) bs := by
  induction bs generalizing s with
  | nil =>
    simp only [List.foldl_nil, scanFinishWith, id, wordsFrom]
    by_cases hc : s.charCount > 0 <;> simp [hc, Nat.add_assoc]
  | cons c cs ih =>
    rw [List.foldl_cons, ih]
    unfold scanByteWith
    simp only [id, wordsFrom]
    by_cases h10 : c.val = 10
    · have hsp : isspace c = true := by simp [isspace, h10]
      by_cases hc : s.charCount > 0 <;> simp [h10, hsp, hc, Nat.add_assoc]
    · by_cases hsp : isspace c = true
      · by_cases hc : s.charCount > 0 <;> simp [h10, hsp, hc, Nat.add_assoc]
      · simp [h10, hsp]

theorem linesFrom_split (bs : List Byte) (pending : Bool) :
    ∃ seg rest, bs.splitOnP (fun c => c.val == 10) = seg :: rest ∧
      linesFrom pending bs =
        (if pending || seg.any (fun c => !isspace c) then 1 else 0) +
          (rest.filter (fun seg => seg.any (fun c => !isspace c))).length := by
  induction bs generalizing pending with
  | nil => exact ⟨[], [], by simp, by simp [linesFrom]⟩
  | cons c cs ih =>
    by_cases h10 : c.val = 10
    · obtain ⟨seg, rest, hs, hl⟩ := ih false
      refine ⟨[], seg :: rest, by simp [List.splitOnP_cons, h10, hs], ?_⟩
      simp only [linesFrom, h10, if_true, hl]
      by_cases hseg : seg.any (fun c => !isspace c) = true
      · simp [List.filter_cons, hseg, Nat.add_comm]
      · simp only [Bool.not_eq_true] at hseg
        simp [List.filter_cons, hseg]
    · obtain ⟨seg, rest, hs, hl⟩ := ih (pending || !isspace c)
      refine ⟨c :: seg, rest, by simp [List.splitOnP_cons, h10, hs], ?_⟩
      simp only [linesFrom, h10, if_false, hl, List.any_cons, Bool.or_assoc]

theorem linesFrom_eq (bs : List Byte) : linesFrom false bs = nonBlankLineCount bs := by
  obtain ⟨seg, rest, hs, hl⟩ := linesFrom_split bs false
  unfold nonBlankLineCount lineSegments
  rw [hl, hs, List.filter_cons]
  by_cases hseg : seg.any (fun c => !isspace c) = true
  · simp [hseg, Nat.add_comm]
  · simp only [Bool.not_eq_true] at hseg
    simp [hseg]

theorem wordsFrom_split (bs : List Byte) (inWord : Bool) :
    ∃ run rest, bs.splitOnP isspace = run :: rest ∧
      wordsFrom inWord bs =
        (if inWord || !run.isEmpty then 1 else 0) +
          (rest.filter (fun run => !run.isEmpty)).length := by
  induction bs generalizing inWord with
  | nil => exact ⟨[], [], by simp, by simp [wordsFrom]⟩
  | cons c cs ih =>
    by_cases hsp : isspace c = true
    · obtain ⟨run, rest, hs, hl⟩ := ih false
      refine ⟨[], run :: rest, by simp [List.splitOnP_cons, hsp, hs], ?_⟩
      simp only [wordsFrom, hsp, if_true, hl]
      cases run <;> simp [List.filter_cons, Nat.add_comm]
    · obtain ⟨run, rest, hs, hl⟩ := ih true
      refine ⟨c :: run, rest, by simp [List.splitOnP_cons, hsp, hs], ?_⟩
      simp [wordsFrom, hsp, hl]

theorem wordsFrom_eq (bs : List Byte) : wordsFrom false bs = wordRunCount bs := by
  obtain ⟨run, rest, hs, hl⟩ := wordsFrom_split bs false
  unfold wordRunCount
  rw [hl, hs, List.filter_cons]
  cases run <;> simp [Nat.add_comm]

theorem linesFrom_blank (bs : List Byte) (h : ∀ c ∈ bs, isspace c = true) :
    linesFrom false bs = 0 := by
  induction bs with
  | nil => simp [linesFrom]
  | cons c cs ih =>
    have hc := h c (List.mem_cons_self _ _)
    have := ih (fun d hd => h d (List.mem_cons_of_mem _ hd))
    by_cases h10 : c.val = 10 <;> simp [linesFrom, h10, hc, this]

theorem wordsFrom_blank (bs : List Byte) (h : ∀ c ∈ bs, isspace c = true) :
    wordsFrom false bs = 0 := by
  induction bs with
  | nil => simp [wordsFrom]
  | cons c cs ih =>
    have hc := h c (List.mem_cons_self _ _)
    have := ih (fun d hd => h d (List.mem_cons_of_mem _ hd))
    simp [wordsFrom, hc, this]

theorem ideal_blank (bs : List Byte) (s : ScanState) (h : ∀ c ∈ bs, isspace c = true)
    (hw : s.wordCount = 0) (hc : s.charCount = 0) :
    bs.foldl (scanByteWith id) s = s := by
  induction bs with
  | nil => rfl
  | cons c cs ih =>
    have hsp := h c (List.mem_cons_self _ _)
    have hstep : scanByteWith id s c = s := by
      unfold scanByteWith
      by_cases h10 : c.val = 10
      · simp [h10, hw, hc]
        cases s; simp_all
      · simp [h10, hsp, hw, hc]
        cases s; simp_all
    rw [List.foldl_cons, hstep]
    exact ih (fun d hd => h d (List.mem_cons_of_mem _ hd))

theorem scanChunks_flatten (chunks : List (List Byte)) :
    scanChunks chunks = scanBytes chunks.flatten := by
  have key : ∀ (cs : List (List Byte)) (s : ScanState),
      cs.foldl scanBuffer s = scanBuffer s cs.flatten := by
    intro cs
    induction cs with
    | nil => intro s; rfl
    | cons c cs ih =>
      intro s
      simp only [List.foldl_cons, List.flatten_cons, ih]
      simp [scanBuffer, List.foldl_append]
  simp [scanChunks, scanBytes, key]

theorem scanBuffer_append (s : ScanState) (xs ys : List Byte) :
    scanBuffer s (xs ++ ys) = scanBuffer (scanBuffer s xs) ys := by
  simp [scanBuffer, List.foldl_append]

theorem readLoop_failed (numBytes filesize fuel : Nat) (stream : IStream)
    (buffer : List Byte) (s : ScanState) (hf : stream.fail = true) :
    readLoop numBytes filesize fuel stream buffer s = s := by
  cases fuel with
  | zero => rfl
  | succ fuel =>
    simp [readLoop, readFromStream, IStream.read, streamActualPos, hf]

theorem readLoop_scans (numBytes : Nat) (hn : 0 < numBytes) (content : List Byte)
    (hlen : content.length < 2 ^ 64) (fuel pos : Nat) (buffer : List Byte) (s : ScanState)
    (hpos : pos ≤ content.length) (hfuel : content.length - pos < fuel) :
    readLoop numBytes content.length fuel
      { data := content, pos := pos, fail := false } buffer s =
      scanBuffer s (content.drop pos) := by
  induction fuel generalizing pos buffer s with
  | zero => omega
  | succ fuel ih =>
    set got := (content.drop pos).take numBytes with hgot
    have hk : got.length = min numBytes (content.length - pos) := by
      simp [hgot]
    have hread : readFromStream { data := content, pos := pos, fail := false } buffer
        numBytes content.length =
        ({ data := content, pos := pos + got.length, fail := decide (got.length < numBytes) },
          got ++ (resize buffer numBytes).drop got.length, got.length) := by
      simp only [readFromStream, IStream.read, streamActualPos, Bool.false_eq_true, if_false,
        ← hgot, Prod.mk.injEq, true_and]
      by_cases hshort : got.length < numBytes
      · have : got.length = content.length - pos := by omega
        simp only [hshort, decide_True, if_true]
        omega
      · simp only [hshort, decide_False, Bool.false_eq_true, if_false]
        omega
    rw [readLoop, hread]
    simp only
    by_cases hzero : got.length > 0
    · simp only [hzero, if_true, List.take_left']
      by_cases hshort : got.length < numBytes
      · rw [readLoop_failed _ _ _ _ _ _ (by simp [hshort])]
        have : got = content.drop pos := by
          rw [hgot]; apply List.take_of_length_le; simp; omega
        rw [this]
      · have hfull : got.length = numBytes := by omega
        simp only [hshort, decide_False]
        rw [ih (pos + got.length) _ _ (by omega) (by omega), ← scanBuffer_append]
        congr 1
        rw [hgot, ← List.drop_drop, hfull]
        exact List.take_append_drop numBytes (content.drop pos)
    · simp only [hzero, if_false]
      have : content.drop pos = [] := by
        apply List.drop_eq_nil_of_le; omega
      rw [this]; rfl

theorem scanStream_eq (numBytes : Nat) (hn : 0 < numBytes) (content : List Byte)
    (hlen : content.length < 2 ^ 64) : scanStream numBytes content = scanBytes content := by
  have := readLoop_scans numBytes hn content hlen (content.length + 1) 0 [] ScanState.init
    (Nat.zero_le _) (by omega)
  simp only [scanStream, this, List.drop_zero, scanBytes, scanChunks, List.foldl_cons,
    List.foldl_nil]

/-! ## Theorems about the driver's totals -/

theorem scanFinishWith_le (s : ScanState) (B : Nat) (h : s.Within B) :
    (scanFinishWith id s).loc ≤ B ∧ (scanFinishWith id s).words ≤ B ∧
      (scanFinishWith id s).chars ≤ B := by
  obtain ⟨h1, h2, h3⟩ := h
  unfold scanFinishWith
  simp only [id]
  by_cases hc : s.charCount > 0 <;> by_cases hw : s.wordCount > 0 <;>
    simp [hc, hw] at h1 h2 ⊢ <;> omega

/-- Each result of the scanner is at most the number of bytes of the file. -/
theorem scanStream_le_length (bs : List Byte) (hlen : bs.length < 2 ^ 64) :
    (scanStream 16384 bs).loc ≤ bs.length ∧ (scanStream 16384 bs).words ≤ bs.length ∧
      (scanStream 16384 bs).chars ≤ bs.length := by
  rw [scanStream_eq 16384 (by norm_num) bs hlen, scanBytes_eq_ideal bs hlen]
  have := foldl_scanByteWith_within bs ScanState.init 0 within_init
  simp only [Nat.zero_add] at this
  exact scanFinishWith_le _ _ this

theorem mapIncrement_keys {D : Type} [DecidableEq D] (m : List (D × Nat)) (key : D) :
    (mapIncrement m key).map Prod.fst =
      if key ∈ m.map Prod.fst then m.map Prod.fst else m.map Prod.fst ++ [key] := by
  induction m with
  | nil => simp [mapIncrement]
  | cons kv m ih =>
    obtain ⟨k, v⟩ := kv
    by_cases hk : k = key
    · simp [mapIncrement, hk]
    · have hk' : ¬ key = k := fun h => hk h.symm
      by_cases hmem : key ∈ m.map Prod.fst
      · simp only [mapIncrement, hk, if_false, List.map_cons, ih, hmem, if_true,
          List.mem_cons, or_true]
      · simp only [mapIncrement, hk, if_false, List.map_cons, ih, hmem, List.mem_cons, hk',
          or_self, List.cons_append]

theorem mapIncrement_nodup {D : Type} [DecidableEq D] (m : List (D × Nat)) (key : D)
    (h : (m.map Prod.fst).Nodup) : ((mapIncrement m key).map Prod.fst).Nodup := by
  rw [mapIncrement_keys]
  split_ifs with hmem
  · exact h
  · exact List.Nodup.append h (List.nodup_singleton _) (by simpa using hmem)

theorem mapIncrement_toFinset {D : Type} [DecidableEq D] (m : List (D × Nat)) (key : D) :
    ((mapIncrement m key).map Prod.fst).toFinset = insert key (m.map Prod.fst).toFinset := by
  rw [mapIncrement_keys]
  split_ifs with hmem
  · rw [Finset.insert_eq_of_mem]; simpa using hmem
  · ext x; simp [or_comm]

/-- The totals after some more files, starting from arbitrary totals. -/
theorem foldl_onFile {P D : Type} [DecidableEq D] (parent_path : P → D)
    (files : List (P × List Byte)) (t : Totals D)
    (hkeys : (t.filesInDirectories.map Prod.fst).Nodup)
    (hfiles : t.totalFiles + files.length < 2 ^ 64)
    (hbytes : t.totalBytes + (files.map (fun f => f.2.length)).sum < 2 ^ 64)
    (hloc : t.totalLOC ≤ t.totalBytes) (hwords : t.totalWords ≤ t.totalBytes)
    (hchars : t.totalChars ≤ t.totalBytes) :
    let r := files.foldl (fun t f => onFile parent_path t f.1 (some f.2)) t
    r.totalFiles = t.totalFiles + files.length ∧
    r.totalBytes = t.totalBytes + (files.map (fun f => f.2.length)).sum ∧
    r.totalLOC = t.totalLOC + (files.map (fun f => (scanStream 16384 f.2).loc)).sum ∧
    r.totalWords = t.totalWords + (files.map (fun f => (scanStream 16384 f.2).words)).sum ∧
    r.totalChars = t.totalChars + (files.map (fun f => (scanStream 16384 f.2).chars)).sum ∧
    (r.filesInDirectories.map Prod.fst).Nodup ∧
    (r.filesInDirectories.map Prod.fst).toFinset =
      (t.filesInDirectories.map Prod.fst).toFinset ∪
        (files.map (fun f => parent_path f.1)).toFinset := by
  induction files generalizing t with
  | nil => simp [hkeys]
  | cons f fs ih =>
    simp only [List.length_cons, List.map_cons, List.sum_cons] at hfiles hbytes
    have hflen : f.2.length < 2 ^ 64 := by omega
    obtain ⟨l1, l2, l3⟩ := scanStream_le_length f.2 hflen
    have e1 : u64 (t.totalFiles + 1) = t.totalFiles + 1 := u64_of_lt (by omega)
    have e2 : u64 (t.totalBytes + f.2.length) = t.totalBytes + f.2.length :=
      u64_of_lt (by omega)
    have e3 : u64 (t.totalLOC + (scanStream 16384 f.2).loc) =
        t.totalLOC + (scanStream 16384 f.2).loc := u64_of_lt (by omega)
    have e4 : u64 (t.totalWords + (scanStream 16384 f.2).words) =
        t.totalWords + (scanStream 16384 f.2).words := u64_of_lt (by omega)
    have e5 : u64 (t.totalChars + (scanStream 16384 f.2).chars) =
        t.totalChars + (scanStream 16384 f.2).chars := u64_of_lt (by omega)
    have t1 : (onFile parent_path t f.1 (some f.2)).totalFiles = t.totalFiles + 1 := e1
    have t2 : (onFile parent_path t f.1 (some f.2)).totalBytes =
        t.totalBytes + f.2.length := e2
    have t3 : (onFile parent_path t f.1 (some f.2)).totalLOC =
        t.totalLOC + (scanStream 16384 f.2).loc := e3
    have t4 : (onFile parent_path t f.1 (some f.2)).totalWords =
        t.totalWords + (scanStream 16384 f.2).words := e4
    have t5 : (onFile parent_path t f.1 (some f.2)).totalChars =
        t.totalChars + (scanStream 16384 f.2).chars := e5
    have t6 : (onFile parent_path t f.1 (some f.2)).filesInDirectories =
        mapIncrement t.filesInDirectories (parent_path f.1) := rfl
    have := ih (onFile parent_path t f.1 (some f.2))
      (by rw [t6]; exact mapIncrement_nodup _ _ hkeys)
      (by rw [t1]; omega) (by rw [t2]; omega) (by rw [t2, t3]; omega)
      (by rw [t2, t4]; omega) (by rw [t2, t5]; omega)
    simp only [List.foldl_cons, List.length_cons, List.map_cons, List.sum_cons,
      List.toFinset_cons]
    obtain ⟨r1, r2, r3, r4, r5, r6, r7⟩ := this
    rw [t1] at r1; rw [t2] at r2; rw [t3] at r3; rw [t4] at r4; rw [t5] at r5
    rw [t6, mapIncrement_toFinset] at r7
    refine ⟨by rw [r1]; omega, by rw [r2]; omega, by rw [r3]; omega, by rw [r4]; omega,
      by rw [r5]; omega, r6, ?_⟩
    rw [r7, Finset.insert_union, Finset.union_insert]

/-! ## Theorems about the separator normalisation -/

theorem separatorReplaceFrom_no_backslash (s : List Char) (skip : Option Char) :
    '\\' ∉ separatorReplaceFrom skip s := by
  induction s generalizing skip with
  | nil => simp [separatorReplaceFrom]
  | cons c rest ih =>
    unfold separatorReplaceFrom
    split_ifs with h1 h2 h3
    · exact ih _
    · simp only [List.mem_cons, not_or]
      exact ⟨by decide, ih _⟩
    · simp only [List.mem_cons, not_or]
      exact ⟨by decide, ih _⟩
    · simp only [List.mem_cons, not_or]
      exact ⟨fun h => h2 h.symm, ih _⟩

/-- The normalised string never holds a backslash. -/
theorem separatorReplace_no_backslash (s : List Char) : '\\' ∉ separatorReplace s :=
  separatorReplaceFrom_no_backslash s none

/-- A string without backslash and without adjacent slashes is left as it is. -/
theorem separatorReplace_of_clean (s : List Char) (hb : '\\' ∉ s)
    (hs : hasAdjacentSlashes s = false) : separatorReplace s = s := by
  unfold separatorReplace
  induction s with
  | nil => rfl
  | cons c rest ih =>
    simp only [List.mem_cons, not_or] at hb
    simp only [hasAdjacentSlashes, Bool.or_eq_false_iff, Bool.and_eq_false_imp, beq_iff_eq] at hs
    unfold separatorReplaceFrom
    have h2 : ¬ c = '\\' := fun h => hb.1 h.symm
    have h3 : ¬ (c = '/' ∧ rest.head? = some '/') := by
      rintro ⟨hc, hr⟩
      have := hs.1 hc
      simp [hr] at this
    simp only [reduceCtorEq, if_false, h2, h3]
    rw [ih hb.2 hs.2]

/-- Normalising a second time changes nothing when the first result has no
adjacent slashes. -/
theorem separatorReplace_idem (s : List Char)
    (hs : hasAdjacentSlashes (separatorReplace s) = false) :
    separatorReplace (separatorReplace s) = separatorReplace s :=
  separatorReplace_of_clean _ (separatorReplace_no_backslash s) hs


/-! ## Theorems about the calls made by `matchFiles` -/

theorem fileCalls_append (xs ys : List Event) :
    fileCalls (xs ++ ys) = fileCalls xs ++ fileCalls ys := by
  induction xs with
  | nil => rfl
  | cons e es ih => cases e <;> simp [fileCalls, ih]

theorem preCalls_append (xs ys : List Event) :
    preCalls (xs ++ ys) = preCalls xs ++ preCalls ys := by
  induction xs with
  | nil => rfl
  | cons e es ih => cases e <;> simp [preCalls, ih]

/-- The leave loop calls only the post-directory callback and leaves the count
alone. -/
theorem leaveLoop_calls (fs : List (List Char)) (st : WalkState) :
    (leaveLoop st fs).matched = st.matched ∧
      fileCalls (leaveLoop st fs).events = fileCalls st.events ∧
      preCalls (leaveLoop st fs).events = preCalls st.events ∧
      (leaveLoop st fs).thrown = st.thrown := by
  induction fs generalizing st with
  | nil => exact ⟨rfl, rfl, rfl, rfl⟩
  | cons f fs ih =>
    unfold leaveLoop
    rw [List.foldl_cons]
    split_ifs with h
    · obtain ⟨h1, h2, h3, h4⟩ := ih
        { st with events := st.events ++ [Event.postDirectory st.currentDirectory],
                  currentDirectory := parent_path st.currentDirectory }
      unfold leaveLoop at h1 h2 h3 h4
      refine ⟨h1, ?_, ?_, h4⟩
      · rw [h2]; simp [fileCalls_append, fileCalls]
      · rw [h3]; simp [preCalls_append, preCalls]
    · exact ih st

theorem trackDirectory_calls (pf : Platform) (this : LOCScanner) (st : WalkState)
    (e : DirEntry) :
    (trackDirectory pf this st e).matched = st.matched ∧
      fileCalls (trackDirectory pf this st e).events = fileCalls st.events ∧
      preCalls (trackDirectory pf this st e).events = preCalls st.events ∧
      (trackDirectory pf this st e).thrown = st.thrown := by
  unfold trackDirectory
  by_cases hp : this.postDirectoryCallback = true
  · simp only [hp, if_true]
    exact leaveLoop_calls _ st
  · simp only [hp]
    exact ⟨rfl, rfl, rfl, rfl⟩

theorem visit_thrown (pf : Platform) (this : LOCScanner) (st : WalkState) (e : DirEntry)
    (h : st.thrown = true) : visit pf this st e = st := by
  simp [visit, h]

theorem foldl_visit_thrown (pf : Platform) (this : LOCScanner) (es : List DirEntry)
    (st : WalkState) (h : st.thrown = true) : es.foldl (visit pf this) st = st := by
  induction es with
  | nil => rfl
  | cons e es ih => rw [List.foldl_cons, visit_thrown pf this st e h, ih]

/-- What the loop body does to the count and to the calls of the file and
pre-directory callbacks, and whether it throws. -/
theorem visit_calls (pf : Platform) (this : LOCScanner) (st : WalkState) (e : DirEntry)
    (hst : st.thrown = false) :
    (visit pf this st e).matched =
        (if fileCalled pf this e then u64 (st.matched + 1) else st.matched) ∧
      fileCalls (visit pf this st e).events =
        fileCalls st.events ++ (if fileCalled pf this e then [relativeString pf this e] else []) ∧
      preCalls (visit pf this st e).events =
        preCalls st.events ++
          (if e.isDirectory && this.preDirectoryCallback then [e.path] else []) ∧
      (visit pf this st e).thrown = fileThrows pf this e := by
  obtain ⟨h1, h2, h3, h4⟩ := trackDirectory_calls pf this st e
  rw [hst] at h4
  unfold visit fileCalled fileThrows
  simp only [hst, Bool.false_eq_true, if_false]
  by_cases hd : e.isDirectory = true
  · by_cases hp : this.preDirectoryCallback = true
    · simp [hd, hp, h1, h2, h3, h4, fileCalls_append, preCalls_append, fileCalls, preCalls]
    · simp [hd, hp, h1, h2, h3, h4]
  · by_cases hr : e.isRegularFile = true
    · by_cases hc : this.fileCallback = true
      · cases hf : passesFilters pf this (relativeString pf this e) with
        | none => simp [hd, hr, hc, hf, h1, h2, h3]
        | some b =>
          cases b
          · simp [hd, hr, hc, hf, h1, h2, h3, h4]
          · simp [hd, hr, hc, hf, h1, h2, h3, h4, fileCalls_append, preCalls_append,
              fileCalls, preCalls]
      · simp [hd, hr, hc, h1, h2, h3, h4]
    · simp [hd, hr, h1, h2, h3, h4]

theorem foldl_visit_calls (pf : Platform) (this : LOCScanner) (es : List DirEntry)
    (st : WalkState) (hst : st.thrown = false)
    (hes : ∀ e ∈ es, fileThrows pf this e = false) :
    (es.foldl (visit pf this) st).thrown = false ∧
      fileCalls (es.foldl (visit pf this) st).events =
        fileCalls st.events ++ (es.filter (fileCalled pf this)).map (relativeString pf this) ∧
      preCalls (es.foldl (visit pf this) st).events =
        preCalls st.events ++
          (es.filter (fun e => e.isDirectory && this.preDirectoryCallback)).map DirEntry.path := by
  induction es generalizing st with
  | nil => simp [hst]
  | cons e es ih =>
    obtain ⟨_, h2, h3, h4⟩ := visit_calls pf this st e hst
    rw [hes e (List.mem_cons_self _ _)] at h4
    obtain ⟨i0, i1, i2⟩ := ih (visit pf this st e) h4
      (fun x hx => hes x (List.mem_cons_of_mem _ hx))
    rw [List.foldl_cons]
    refine ⟨i0, ?_, ?_⟩
    · rw [i1, h2]
      by_cases hc : fileCalled pf this e = true <;> simp [hc, List.filter_cons]
    · rw [i2, h3]
      by_cases hc : (e.isDirectory && this.preDirectoryCallback) = true
      · simp [hc, List.filter_cons]
      · simp only [hc]; simp [List.filter_cons, hc]

theorem leaveRemaining_calls (pf : Platform) (this : LOCScanner) (st : WalkState) :
    (leaveRemaining pf this st).matched = st.matched ∧
      fileCalls (leaveRemaining pf this st).events = fileCalls st.events ∧
      preCalls (leaveRemaining pf this st).events = preCalls st.events ∧
      (leaveRemaining pf this st).thrown = st.thrown := by
  unfold leaveRemaining
  by_cases ht : st.thrown = true
  · simp [ht]
  · by_cases hp : this.postDirectoryCallback = true
    · simp only [ht, hp, Bool.false_eq_true, if_false, if_true]
      obtain ⟨h1, h2, h3, h4⟩ := leaveLoop_calls
        (splitFilenames (separatorReplace
          (pf.string (pf.relative this.startPath st.currentDirectory)))) st
      refine ⟨h1, ?_, ?_, ?_⟩
      · simp [fileCalls_append, fileCalls, h2]
      · simp [preCalls_append, preCalls, h3]
      · rw [h4]; simpa using ht
    · simp [ht, hp]

/-- The calls of the file and pre-directory callbacks made by a run in which
no filter throws. -/
theorem walk_calls (pf : Platform) (this : LOCScanner) (root : List Node)
    (hes : ∀ e ∈ visited this root, fileThrows pf this e = false) :
    (walk pf this root).thrown = false ∧
      fileCalls (walk pf this root).events =
        ((visited this root).filter (fileCalled pf this)).map (relativeString pf this) ∧
      preCalls (walk pf this root).events =
        (if this.preDirectoryCallback then [this.startPath] else []) ++
          ((visited this root).filter
            (fun e => e.isDirectory && this.preDirectoryCallback)).map DirEntry.path := by
  unfold walk
  simp only
  obtain ⟨_, h2, h3, h4⟩ := leaveRemaining_calls pf this
    ((visited this root).foldl (visit pf this)
      { currentDirectory := this.startPath, matched := 0,
        events := if this.preDirectoryCallback then [Event.preDirectory this.startPath] else [],
        thrown := false })
  obtain ⟨i0, i1, i2⟩ := foldl_visit_calls pf this (visited this root)
      { currentDirectory := this.startPath, matched := 0,
        events := if this.preDirectoryCallback then [Event.preDirectory this.startPath] else [],
        thrown := false } rfl hes
  refine ⟨by rw [h4, i0], ?_, ?_⟩
  · rw [h2, i1]
    by_cases hp : this.preDirectoryCallback = true <;> simp [hp, fileCalls]
  · rw [h3, i2]
    by_cases hp : this.preDirectoryCallback = true <;> simp [hp, preCalls]

/-! ## Theorems about the filters -/

/-- With well-formed filters `doesPathMatchFilters` does not throw and says
whether the path, normalised once more, full-matches one of them. -/
theorem doesPathMatchFilters_wellFormed (pf : Platform) (p : List Char)
    (filters : List (List Char))
    (h : ∀ f ∈ filters, ∀ str, (pf.regex_match str f).isSome = true) :
    doesPathMatchFilters pf p filters =
      some (filters.any (fun f => fullMatches pf (separatorReplace p) f)) := by
  induction filters with
  | nil => rfl
  | cons f fs ih =>
    have hf := h f (List.mem_cons_self _ _) (separatorReplace p)
    have ih' := ih (fun g hg => h g (List.mem_cons_of_mem _ hg))
    cases hre : pf.regex_match (separatorReplace p) f with
    | none => rw [hre] at hf; exact absurd hf (by simp)
    | some b =>
      cases b <;> simp [doesPathMatchFilters, hre, List.any_cons, fullMatches, ih']

theorem passesFilters_wellFormed (pf : Platform) (this : LOCScanner) (p : List Char)
    (h : WellFormedFilters pf this) :
    passesFilters pf this p = some (accepts pf this (separatorReplace p)) := by
  simp only [WellFormedFilters, List.mem_append] at h
  have hex := doesPathMatchFilters_wellFormed pf p this.exclusionFilters
    (fun f hf => h f (Or.inl hf))
  have hin := doesPathMatchFilters_wellFormed pf p this.inclusionFilters
    (fun f hf => h f (Or.inr hf))
  unfold passesFilters accepts
  rw [hex]
  by_cases he : (this.exclusionFilters.any fun f => fullMatches pf (separatorReplace p) f) = true
  · simp [he]
  · simp only [Bool.not_eq_true] at he
    simp only [he, hin, Bool.not_false, Bool.true_and]
    by_cases hl : this.inclusionFilters.length = 0
    · have hnil : this.inclusionFilters = [] := List.length_eq_zero.mp hl
      simp [hnil]
    · have hne : this.inclusionFilters ≠ [] := fun hh => hl (by simp [hh])
      have hemp : this.inclusionFilters.isEmpty = false := by
        cases hi : this.inclusionFilters with
        | nil => exact absurd hi hne
        | cons a l => rfl
      simp [hl, hemp]

theorem fileThrows_wellFormed (pf : Platform) (this : LOCScanner) (e : DirEntry)
    (h : WellFormedFilters pf this) : fileThrows pf this e = false := by
  simp [fileThrows, passesFilters_wellFormed pf this _ h]

/-! ## Theorems about the iterator -/

mutual
theorem allEntriesOfNode_depth (follow : Bool) (parent : Path) (k : Nat) (n : Node) :
    ∀ e ∈ allEntriesOfNode follow parent k n,
      k ≤ e.depth ∧ ∃ rel, e.path = parent ++ rel ∧ rel.length = e.depth - k + 1 := by
  cases n with
  | file name regular =>
    intro e he
    simp only [allEntriesOfNode, List.mem_singleton] at he
    subst he
    exact ⟨le_refl _, [name], rfl, by simp [Node.entry]⟩
  | dir name readable children =>
    intro e he
    simp only [allEntriesOfNode, List.mem_cons] at he
    rcases he with he | he
    · subst he
      exact ⟨le_refl _, [name], rfl, by simp [Node.entry]⟩
    · split_ifs at he with hr
      · simp at he
      · obtain ⟨h1, rel, h2, h3⟩ :=
          allEntriesOfList_depth follow (parent ++ [name]) (k + 1) children e he
        refine ⟨by omega, name :: rel, by simp [h2], ?_⟩
        simp only [List.length_cons, h3]; omega
  | link name target children =>
    intro e he
    simp only [allEntriesOfNode, List.mem_cons] at he
    rcases he with he | he
    · subst he
      exact ⟨le_refl _, [name], rfl, by simp [Node.entry]⟩
    · split_ifs at he with hr
      · simp at he
      · obtain ⟨h1, rel, h2, h3⟩ :=
          allEntriesOfList_depth follow (parent ++ [name]) (k + 1) children e he
        refine ⟨by omega, name :: rel, by simp [h2], ?_⟩
        simp only [List.length_cons, h3]; omega
theorem allEntriesOfList_depth (follow : Bool) (parent : Path) (k : Nat) (ns : List Node) :
    ∀ e ∈ allEntriesOfList follow parent k ns,
      k ≤ e.depth ∧ ∃ rel, e.path = parent ++ rel ∧ rel.length = e.depth - k + 1 := by
  cases ns with
  | nil => intro e he; simp [allEntriesOfList] at he
  | cons n ns =>
    intro e he
    simp only [allEntriesOfList, List.mem_append] at he
    rcases he with he | he
    · exact allEntriesOfNode_depth follow parent k n e he
    · exact allEntriesOfList_depth follow parent k ns e he
end

mutual
theorem entriesOfNode_zero (follow : Bool) (parent : Path) (k : Nat) (n : Node) :
    entriesOfNode follow 0 parent k n = allEntriesOfNode follow parent k n := by
  cases n with
  | file name regular => rfl
  | dir name readable children =>
    simp only [entriesOfNode, allEntriesOfNode, Nat.lt_irrefl, false_and, false_or]
    rw [entriesOfList_zero]
  | link name target children =>
    simp only [entriesOfNode, allEntriesOfNode, Nat.lt_irrefl, false_and, false_or]
    rw [entriesOfList_zero]
theorem entriesOfList_zero (follow : Bool) (parent : Path) (k : Nat) (ns : List Node) :
    entriesOfList follow 0 parent k ns = allEntriesOfList follow parent k ns := by
  cases ns with
  | nil => rfl
  | cons n ns =>
    simp only [entriesOfList, allEntriesOfList]
    rw [entriesOfNode_zero, entriesOfList_zero]
end

mutual
theorem entriesOfNode_filter (follow : Bool) (d : Nat) (hd : 0 < d) (parent : Path) (k : Nat)
    (hk : k ≤ d) (n : Node) :
    entriesOfNode follow d parent k n =
      (allEntriesOfNode follow parent k n).filter (fun e => decide (e.depth ≤ d)) := by
  cases n with
  | file name regular =>
    simp [entriesOfNode, allEntriesOfNode, List.filter_cons, hk, Node.entry]
  | dir name readable children =>
    have hself : decide (((Node.dir name readable children).entry parent k).depth ≤ d) = true := by
      simpa [Node.entry] using hk
    simp only [entriesOfNode, allEntriesOfNode, List.filter_cons, hself, if_true]
    congr 1
    by_cases hr : readable = false
    · simp [hr]
    · by_cases hlim : d ≤ k
      · have hcond : (d > 0 ∧ k ≥ d) ∨ readable = false := Or.inl ⟨hd, hlim⟩
        rw [if_pos hcond, if_neg hr]
        symm
        rw [List.filter_eq_nil_iff]
        intro e he
        have := (allEntriesOfList_depth follow (parent ++ [name]) (k + 1) children e he).1
        simp only [decide_eq_true_eq]; omega
      · have hcond : ¬ ((d > 0 ∧ k ≥ d) ∨ readable = false) := by
          rintro (h | h)
          · exact hlim h.2
          · exact hr h
        rw [if_neg hcond, if_neg hr]
        exact entriesOfList_filter follow d hd (parent ++ [name]) (k + 1) (by omega) children
  | link name target children =>
    have hself : decide (((Node.link name target children).entry parent k).depth ≤ d) = true := by
      simpa [Node.entry] using hk
    simp only [entriesOfNode, allEntriesOfNode, List.filter_cons, hself, if_true]
    congr 1
    by_cases hr : (follow && target == LinkTarget.directory true) = false
    · simp [hr]
    · by_cases hlim : d ≤ k
      · have hcond : (d > 0 ∧ k ≥ d) ∨
            (follow && target == LinkTarget.directory true) = false := Or.inl ⟨hd, hlim⟩
        rw [if_pos hcond, if_neg hr]
        symm
        rw [List.filter_eq_nil_iff]
        intro e he
        have := (allEntriesOfList_depth follow (parent ++ [name]) (k + 1) children e he).1
        simp only [decide_eq_true_eq]; omega
      · have hcond : ¬ ((d > 0 ∧ k ≥ d) ∨
            (follow && target == LinkTarget.directory true) = false) := by
          rintro (h | h)
          · exact hlim h.2
          · exact hr h
        rw [if_neg hcond, if_neg hr]
        exact entriesOfList_filter follow d hd (parent ++ [name]) (k + 1) (by omega) children
theorem entriesOfList_filter (follow : Bool) (d : Nat) (hd : 0 < d) (parent : Path) (k : Nat)
    (hk : k ≤ d) (ns : List Node) :
    entriesOfList follow d parent k ns =
      (allEntriesOfList follow parent k ns).filter (fun e => decide (e.depth ≤ d)) := by
  cases ns with
  | nil => rfl
  | cons n ns =>
    simp only [entriesOfList, allEntriesOfList, List.filter_append]
    rw [entriesOfNode_filter follow d hd parent k hk n,
      entriesOfList_filter follow d hd parent k hk ns]
end

theorem entry_kind (parent : Path) (k : Nat) (n : Node)
    (h : (n.entry parent k).isRegularFile = true) : (n.entry parent k).isDirectory = false := by
  cases n with
  | file name regular => rfl
  | dir name readable children => simp [Node.entry] at h
  | link name target children =>
    simp only [Node.entry, beq_iff_eq] at h
    simp [Node.entry, h]

mutual
theorem allEntriesOfNode_kind (follow : Bool) (parent : Path) (k : Nat) (n : Node) :
    ∀ e ∈ allEntriesOfNode follow parent k n,
      e.isRegularFile = true → e.isDirectory = false := by
  cases n with
  | file name regular =>
    intro e he hr
    simp only [allEntriesOfNode, List.mem_singleton] at he
    subst he; exact entry_kind _ _ _ hr
  | dir name readable children =>
    intro e he hr
    simp only [allEntriesOfNode, List.mem_cons] at he
    rcases he with he | he
    · subst he; exact entry_kind _ _ _ hr
    · split_ifs at he
      · simp at he
      · exact allEntriesOfList_kind follow (parent ++ [name]) (k + 1) children e he hr
  | link name target children =>
    intro e he hr
    simp only [allEntriesOfNode, List.mem_cons] at he
    rcases he with he | he
    · subst he; exact entry_kind _ _ _ hr
    · split_ifs at he
      · simp at he
      · exact allEntriesOfList_kind follow (parent ++ [name]) (k + 1) children e he hr
theorem allEntriesOfList_kind (follow : Bool) (parent : Path) (k : Nat) (ns : List Node) :
    ∀ e ∈ allEntriesOfList follow parent k ns,
      e.isRegularFile = true → e.isDirectory = false := by
  cases ns with
  | nil => intro e he; simp [allEntriesOfList] at he
  | cons n ns =>
    intro e he
    simp only [allEntriesOfList, List.mem_append] at he
    rcases he with he | he
    · exact allEntriesOfNode_kind follow parent k n e he
    · exact allEntriesOfList_kind follow parent k ns e he
end

mutual
theorem allEntriesOfNode_regular (follow : Bool) (parent : Path) (k : Nat) (n : Node) :
    ((allEntriesOfNode follow parent k n).filter (fun e => e.isRegularFile)).length =
      n.reachableRegularCount follow := by
  cases n with
  | file name regular =>
    cases regular <;>
      simp [allEntriesOfNode, Node.reachableRegularCount, List.filter_cons, Node.entry]
  | dir name readable children =>
    simp only [allEntriesOfNode, Node.reachableRegularCount, List.filter_cons, Node.entry,
      Bool.false_eq_true, if_false]
    split_ifs with hr
    · rfl
    · exact allEntriesOfList_regular follow (parent ++ [name]) (k + 1) children
  | link name target children =>
    simp only [allEntriesOfNode, Node.reachableRegularCount, List.filter_cons, Node.entry,
      beq_iff_eq]
    have hrec := allEntriesOfList_regular follow (parent ++ [name]) (k + 1) children
    by_cases ht : target = LinkTarget.file true
    · by_cases hr : (follow && target == LinkTarget.directory true) = false
      · simp [ht, hr]
      · simp [ht] at hr
    · by_cases hr : (follow && target == LinkTarget.directory true) = false
      · simp [ht, hr]
      · simp only [ht, if_false, hr, Nat.zero_add]
        exact hrec
theorem allEntriesOfList_regular (follow : Bool) (parent : Path) (k : Nat) (ns : List Node) :
    ((allEntriesOfList follow parent k ns).filter (fun e => e.isRegularFile)).length =
      reachableRegularCount follow ns := by
  cases ns with
  | nil => rfl
  | cons n ns =>
    simp only [allEntriesOfList, reachableRegularCount, List.filter_append, List.length_append]
    rw [allEntriesOfNode_regular follow parent k n, allEntriesOfList_regular follow parent k ns]
end

mutual
theorem reachableRegularCount_plain_node (follow : Bool) (n : Node) (h : n.plain = true) :
    n.reachableRegularCount follow = n.regularCount := by
  cases n with
  | file name regular => rfl
  | dir name readable children =>
    simp only [Node.plain, Bool.and_eq_true] at h
    simp only [Node.reachableRegularCount, Node.regularCount, h.1, Bool.true_eq_false,
      if_false]
    exact reachableRegularCount_plain follow children h.2
  | link name target children => simp [Node.plain] at h
/-- In a tree without symbolic links and unreadable directories the iterator
reaches every regular file. -/
theorem reachableRegularCount_plain (follow : Bool) (ns : List Node) (h : plainList ns = true) :
    reachableRegularCount follow ns = regularCount ns := by
  cases ns with
  | nil => rfl
  | cons n ns =>
    simp only [plainList, Bool.and_eq_true] at h
    simp only [reachableRegularCount, regularCount]
    rw [reachableRegularCount_plain_node follow n h.1, reachableRegularCount_plain follow ns h.2]
end

/-- The entries the loop visits: all the iterator can reach without a depth
limit, those of depth at most `maxDepth` with one. -/
theorem visited_eq (this : LOCScanner) (root : List Node) :
    visited this root =
      if this.maxDepth = 0 then reachable this root
      else (reachable this root).filter (fun e => decide (e.depth ≤ this.maxDepth)) := by
  unfold visited reachable
  split_ifs with h
  · rw [h, entriesOfList_zero]
  · exact entriesOfList_filter _ _ (Nat.pos_of_ne_zero h) _ 0 (Nat.zero_le _) root

theorem visited_subset (this : LOCScanner) (root : List Node) :
    ∀ e ∈ visited this root, e ∈ reachable this root := by
  intro e he
  rw [visited_eq] at he
  split_ifs at he
  · exact he
  · exact (List.mem_filter.mp he).1

/-! ## Theorems about the strings of relative paths -/

theorem intercalate_cons_cons (sep : Char) (a b : Name) (cs : List Name) :
    [sep].intercalate (a :: b :: cs) = a ++ sep :: [sep].intercalate (b :: cs) := by
  simp [List.intercalate, List.intersperse]

theorem intercalate_single (sep : Char) (a : Name) : [sep].intercalate [a] = a := by
  simp [List.intercalate, List.intersperse]

theorem separatorReplaceFrom_name (name rest : List Char) (h1 : '/' ∉ name)
    (h2 : '\\' ∉ name) :
    separatorReplaceFrom none (name ++ rest) = name ++ separatorReplaceFrom none rest := by
  induction name with
  | nil => rfl
  | cons c cs ih =>
    simp only [List.mem_cons, not_or] at h1 h2
    have e1 : ¬ c = '\\' := fun h => h2.1 h.symm
    have e2 : ¬ c = '/' := fun h => h1.1 h.symm
    simp only [List.cons_append, separatorReplaceFrom, reduceCtorEq, if_false, e1, e2,
      false_and, List.append_eq]
    rw [ih h1.2 h2.2]

theorem separatorReplaceFrom_after_sep (sep : Char) (hsep : sep = '/' ∨ sep = '\\')
    (name rest : List Char) (hn : SepFree name) :
    separatorReplaceFrom none (sep :: (name ++ rest)) =
      '/' :: separatorReplaceFrom none (name ++ rest) := by
  obtain ⟨hne, h1, h2⟩ := hn
  cases name with
  | nil => exact absurd rfl hne
  | cons c cs =>
    simp only [List.mem_cons, not_or] at h1 h2
    have e1 : ¬ c = '\\' := fun h => h2.1 h.symm
    have e2 : ¬ c = '/' := fun h => h1.1 h.symm
    rcases hsep with rfl | rfl
    · have e3 : ¬ ('/' = '\\') := by decide
      simp [separatorReplaceFrom, e1, e2, e3, Ne.symm e2]
    · have e4 : ¬ (some '\\' = some c) := by
        intro h; exact e1 (Option.some.inj h).symm
      simp [separatorReplaceFrom, e1, e2, e4]

/-- Normalising the string of a relative path whose components are free of
separators gives the components joined by single slashes. -/
theorem separatorReplace_string (pf : Platform)
    (hsep : pf.preferred_separator = '/' ∨ pf.preferred_separator = '\\')
    (cs : List Name) (h : ∀ c ∈ cs, SepFree c) :
    separatorReplace (pf.string cs) = ['/'].intercalate cs := by
  unfold separatorReplace Platform.string
  induction cs with
  | nil => rfl
  | cons a cs ih =>
    cases cs with
    | nil =>
      have ha := h a (List.mem_cons_self _ _)
      rw [intercalate_single, intercalate_single]
      have := separatorReplaceFrom_name a [] ha.2.1 ha.2.2
      simpa [separatorReplaceFrom] using this
    | cons b cs =>
      have ha := h a (List.mem_cons_self _ _)
      have hb := h b (List.mem_cons_of_mem _ (List.mem_cons_self _ _))
      have ih' := ih (fun c hc => h c (List.mem_cons_of_mem _ hc))
      rw [intercalate_cons_cons, intercalate_cons_cons,
        separatorReplaceFrom_name a _ ha.2.1 ha.2.2]
      congr 1
      cases cs with
      | nil =>
        rw [intercalate_single] at ih' ⊢
        have := separatorReplaceFrom_after_sep _ hsep b [] hb
        simp only [List.append_nil] at this
        rw [this, ih', intercalate_single]
      | cons c cs =>
        rw [intercalate_cons_cons] at ih' ⊢
        rw [separatorReplaceFrom_after_sep _ hsep b _ hb, ih']

theorem splitFilenamesFrom_name (cur name rest : List Char) (h : '/' ∉ name) :
    splitFilenamesFrom cur (name ++ rest) = splitFilenamesFrom (cur ++ name) rest := by
  induction name generalizing cur with
  | nil => simp
  | cons c cs ih =>
    simp only [List.mem_cons, not_or] at h
    have e : ¬ c = '/' := fun hc => h.1 hc.symm
    simp only [List.cons_append, splitFilenamesFrom, e, if_false, List.append_eq]
    rw [ih _ h.2]
    simp

/-- Splitting the slash-joined components gives the components back. -/
theorem splitFilenames_intercalate (cs : List Name) (h : ∀ c ∈ cs, SepFree c) :
    splitFilenames (['/'].intercalate cs) = cs := by
  unfold splitFilenames
  induction cs with
  | nil => rfl
  | cons a cs ih =>
    have ha := h a (List.mem_cons_self _ _)
    cases cs with
    | nil =>
      rw [intercalate_single]
      have := splitFilenamesFrom_name [] a [] ha.2.1
      simp only [List.append_nil, List.nil_append] at this
      rw [this]
      cases a with
      | nil => exact absurd rfl ha.1
      | cons x xs => simp [splitFilenamesFrom]
    | cons b cs =>
      rw [intercalate_cons_cons, splitFilenamesFrom_name [] a _ ha.2.1]
      simp only [List.nil_append, splitFilenamesFrom, if_true]
      rw [ih (fun c hc => h c (List.mem_cons_of_mem _ hc))]

/-- The vector `filenames` of lines 157-169 holds the components of the
relative path when these are free of separators. -/
theorem filenames_eq (pf : Platform)
    (hsep : pf.preferred_separator = '/' ∨ pf.preferred_separator = '\\')
    (cs : List Name) (h : ∀ c ∈ cs, SepFree c) :
    splitFilenames (separatorReplace (pf.string cs)) = cs := by
  rw [separatorReplace_string pf hsep cs h, splitFilenames_intercalate cs h]

/-! ## Theorems about the stack discipline -/


theorem replay_append (xs ys : List Event) (stack : List Path) :
    replay stack (xs ++ ys) = (replay stack xs).bind (fun s => replay s ys) := by
  induction xs generalizing stack with
  | nil => cases stack <;> simp [replay]
  | cons e es ih =>
    cases e with
    | preDirectory p => simp [replay, ih]
    | postDirectory p =>
      cases stack with
      | nil => simp [replay]
      | cons q stack =>
        by_cases h : p = q <;> simp [replay, h, ih]
    | file r => simp [replay, ih]

theorem openStack_snoc (start : Path) (c : List Name) (x : Name) :
    openStack start (c ++ [x]) = (start ++ (c ++ [x])) :: openStack start c := by
  induction c generalizing start with
  | nil => simp [openStack]
  | cons y c ih => simp [openStack, ih]

theorem sepFree_dotdot : SepFree dotdot := by
  refine ⟨by decide, by decide, by decide⟩

theorem sepFree_dot : SepFree dot := by
  refine ⟨by decide, by decide, by decide⟩

theorem leaveLoop_cons_dotdot (st : WalkState) (fs : List (List Char)) :
    leaveLoop st (dotdot :: fs) =
      leaveLoop { st with events := st.events ++ [Event.postDirectory st.currentDirectory],
                          currentDirectory := parent_path st.currentDirectory } fs := by
  simp [leaveLoop]

theorem leaveLoop_other (st : WalkState) (fs : List (List Char))
    (h : ∀ f ∈ fs, f ≠ dotdot) : leaveLoop st fs = st := by
  induction fs with
  | nil => rfl
  | cons f fs ih =>
    have hf : f ≠ dotdot := h f (List.mem_cons_self _ _)
    have := ih (fun g hg => h g (List.mem_cons_of_mem _ hg))
    unfold leaveLoop at this ⊢
    simp only [List.foldl_cons, hf, if_false]
    exact this

/-- One `".."` for every component of `u` closes the directories from
`start ++ (p ++ u)` up to, not including, `start ++ p`. -/
theorem leaveLoop_pops (start : Path) (p : List Name) (s : List (List Char))
    (hs : ∀ f ∈ s, f ≠ dotdot) (u : List Name) (st : WalkState)
    (hc : st.currentDirectory = start ++ (p ++ u))
    (hr : replay [] st.events = some (openStack start (p ++ u))) :
    (leaveLoop st (List.replicate u.length dotdot ++ s)).currentDirectory = start ++ p ∧
      replay [] (leaveLoop st (List.replicate u.length dotdot ++ s)).events =
        some (openStack start p) := by
  induction u using List.reverseRecOn generalizing st with
  | nil =>
    simp only [List.length_nil, List.replicate_zero, List.nil_append, List.append_nil] at hc hr ⊢
    rw [leaveLoop_other st s hs]
    exact ⟨hc, hr⟩
  | append_singleton u x ih =>
    simp only [List.length_append, List.length_singleton, List.replicate_succ,
      List.cons_append]
    rw [leaveLoop_cons_dotdot]
    apply ih
    · simp only [hc, parent_path]
      rw [← List.append_assoc, ← List.append_assoc, List.dropLast_concat, List.append_assoc]
    · simp only [replay_append, hr, Option.some_bind]
      rw [hc, ← List.append_assoc p u [x], openStack_snoc]
      simp [replay]

theorem lexically_relative_common (b p q : Path) :
    lexically_relative (b ++ p) (b ++ q) = lexically_relative p q := by
  induction b with
  | nil => rfl
  | cons x b ih => simp [lexically_relative, ih]

/-- The relative path from `base ++ u` to `base ++ s`, where `s` is empty or a
single clean name that is not the first component of `u`: one `".."` for every
component of `u`, then components that are not `".."`. -/
theorem lexically_relative_shape (s u : List Name)
    (hs : s = [] ∨ ∃ name, s = [name] ∧ CleanName name ∧ u.head? ≠ some name) :
    ∃ s', lexically_relative s u = List.replicate u.length dotdot ++ s' ∧
      (∀ f ∈ s', f ≠ dotdot) ∧ (∀ f ∈ s', SepFree f) := by
  rcases hs with rfl | ⟨name, rfl, hclean, hhead⟩
  · cases u with
    | nil =>
      refine ⟨[dot], by simp [lexically_relative], ?_, ?_⟩
      · intro f hf; simp only [List.mem_singleton] at hf; subst hf; decide
      · intro f hf; simp only [List.mem_singleton] at hf; subst hf; exact sepFree_dot
    | cons x u =>
      refine ⟨[], ?_, by simp, by simp⟩
      simp [lexically_relative, List.replicate_succ]
  · have hprops : (∀ f ∈ [name], f ≠ dotdot) ∧ (∀ f ∈ [name], SepFree f) := by
      constructor
      · intro f hf; simp only [List.mem_singleton] at hf; subst hf; exact hclean.2.2.1
      · intro f hf; simp only [List.mem_singleton] at hf; subst hf
        exact ⟨hclean.1, hclean.2.2.2.1, hclean.2.2.2.2⟩
    cases u with
    | nil => exact ⟨[name], by simp [lexically_relative], hprops⟩
    | cons x u =>
      have hne : ¬ name = x := by
        intro h; apply hhead; simp [h]
      refine ⟨[name], ?_, hprops⟩
      simp [lexically_relative, hne, List.replicate_succ]


theorem leaveLoop_thrown (fs : List (List Char)) (st : WalkState) :
    (leaveLoop st fs).thrown = st.thrown := (leaveLoop_calls fs st).2.2.2

/-- Lines 149-179 at an entry whose directory is `start ++ (p ++ s)` while the
loop is at `start ++ (p ++ u)`: the directories below `start ++ p` are left. -/
theorem trackDirectory_tracks (pf : Platform)
    (hsep : pf.preferred_separator = '/' ∨ pf.preferred_separator = '\\')
    (hcanon : ∀ p, pf.weakly_canonical p = p)
    (this : LOCScanner) (hpost : this.postDirectoryCallback = true)
    (st : WalkState) (e : DirEntry) (p s u : List Name)
    (ht : Tracks this.startPath st (p ++ u))
    (hdir : (if e.isDirectory then e.path else parent_path e.path) = this.startPath ++ (p ++ s))
    (hs : s = [] ∨ ∃ name, s = [name] ∧ CleanName name ∧ u.head? ≠ some name) :
    (trackDirectory pf this st e).thrown = false ∧
      (trackDirectory pf this st e).currentDirectory = this.startPath ++ (p ++ s) ∧
      replay [] (trackDirectory pf this st e).events = some (openStack this.startPath p) := by
  obtain ⟨hthrown, hc, hr⟩ := ht
  obtain ⟨s', hrel, hnd, hsf⟩ := lexically_relative_shape s u hs
  refine ⟨by rw [(trackDirectory_calls pf this st e).2.2.2, hthrown], ?_⟩
  unfold trackDirectory
  simp only [hpost, if_true, hdir, Platform.relative, hcanon]
  refine ⟨trivial, ?_⟩
  rw [hc, lexically_relative_common, lexically_relative_common, hrel, filenames_eq pf hsep]
  · exact (leaveLoop_pops this.startPath p s' hnd u st hc hr).2
  · intro c hcm
    rcases List.mem_append.mp hcm with h | h
    · rw [List.eq_of_mem_replicate h]; exact sepFree_dotdot
    · exact hsf c h

theorem replay_singleton_file (stack : List Path) (r : List Char) :
    replay stack [Event.file r] = some stack := by
  cases stack <;> simp [replay]

/-- The loop body at a directory `start ++ (P ++ [name])` while the loop is at
`start ++ (P ++ u)`, `u` not starting with `name`. -/
theorem visit_dir_tracks (pf : Platform)
    (hsep : pf.preferred_separator = '/' ∨ pf.preferred_separator = '\\')
    (hcanon : ∀ p, pf.weakly_canonical p = p)
    (this : LOCScanner) (hpre : this.preDirectoryCallback = true)
    (hpost : this.postDirectoryCallback = true)
    (st : WalkState) (P u : List Name) (name : Name) (k : Nat)
    (ht : Tracks this.startPath st (P ++ u)) (hclean : CleanName name)
    (hhead : u.head? ≠ some name) :
    Tracks this.startPath
      (visit pf this st { path := this.startPath ++ (P ++ [name]), isDirectory := true,
                          isRegularFile := false, depth := k })
      (P ++ [name]) := by
  obtain ⟨h0, h1, h2⟩ := trackDirectory_tracks pf hsep hcanon this hpost st
    { path := this.startPath ++ (P ++ [name]), isDirectory := true,
      isRegularFile := false, depth := k } P [name] u ht (by simp)
    (Or.inr ⟨name, rfl, hclean, hhead⟩)
  unfold visit
  simp only [ht.1, Bool.false_eq_true, if_false, if_true, hpre]
  refine ⟨h0, h1, ?_⟩
  simp only [replay_append, h2, Option.some_bind, openStack_snoc]
  simp [replay]

/-- The loop body at a file `start ++ (P ++ [name])` while the loop is at
`start ++ (P ++ u)`, when the filters do not throw. -/
theorem visit_file_tracks (pf : Platform)
    (hsep : pf.preferred_separator = '/' ∨ pf.preferred_separator = '\\')
    (hcanon : ∀ p, pf.weakly_canonical p = p)
    (this : LOCScanner) (hpost : this.postDirectoryCallback = true)
    (hwf : WellFormedFilters pf this)
    (st : WalkState) (P u : List Name) (name : Name) (regular : Bool) (k : Nat)
    (ht : Tracks this.startPath st (P ++ u)) :
    Tracks this.startPath
      (visit pf this st { path := this.startPath ++ (P ++ [name]), isDirectory := false,
                          isRegularFile := regular, depth := k })
      P := by
  obtain ⟨h0, h1, h2⟩ := trackDirectory_tracks pf hsep hcanon this hpost st
    { path := this.startPath ++ (P ++ [name]), isDirectory := false,
      isRegularFile := regular, depth := k } P [] u ht
    (by simp [parent_path, ← List.append_assoc, List.dropLast_concat])
    (Or.inl rfl)
  simp only [List.append_nil] at h1
  unfold visit
  simp only [ht.1, Bool.false_eq_true, if_false, passesFilters_wellFormed pf this _ hwf]
  split_ifs
  · split
    · rename_i heq; simp at heq
    · exact ⟨h0, h1, by simp only [replay_append, h2, Option.some_bind, replay_singleton_file]⟩
    · exact ⟨h0, h1, h2⟩
  · exact ⟨h0, h1, h2⟩

mutual
/-- The loop over the positions at and below one entry of the directory
`start ++ P`, begun at `start ++ (P ++ u)` with `u` not starting with the
name of the entry, ends at `start ++ (P ++ v)` with `v` empty or starting with
that name, and keeps the open directories in step. -/
theorem entriesOfNode_tracks (pf : Platform)
    (hsep : pf.preferred_separator = '/' ∨ pf.preferred_separator = '\\')
    (hcanon : ∀ p, pf.weakly_canonical p = p)
    (this : LOCScanner) (hpre : this.preDirectoryCallback = true)
    (hpost : this.postDirectoryCallback = true) (hwf : WellFormedFilters pf this)
    (follow : Bool) (d : Nat) (n : Node) (P : List Name) (k : Nat)
    (st : WalkState) (u : List Name) (hw : n.wellNamed = true)
    (ht : Tracks this.startPath st (P ++ u)) (hhead : u.head? ≠ some n.name) :
    ∃ v, Tracks this.startPath
        ((entriesOfNode follow d (this.startPath ++ P) k n).foldl (visit pf this) st)
        (P ++ v) ∧
      ∀ y, v.head? = some y → y = n.name := by
  cases n with
  | file name regular =>
    refine ⟨[], ?_, by simp⟩
    simp only [entriesOfNode, Node.entry, List.foldl_cons, List.foldl_nil, List.append_nil,
      List.append_assoc]
    exact visit_file_tracks pf hsep hcanon this hpost hwf st P u name regular k ht
  | dir name readable children =>
    simp only [Node.wellNamed, Bool.and_eq_true, decide_eq_true_eq, Bool.or_eq_true,
      Bool.not_eq_true'] at hw
    simp only [Node.name] at hhead
    have h1 := visit_dir_tracks pf hsep hcanon this hpre hpost st P u name k ht hw.1 hhead
    simp only [entriesOfNode, Node.entry, List.foldl_cons, List.append_assoc]
    split_ifs with hlim
    · exact ⟨[name], by simpa using h1, by simp [Node.name]⟩
    · have hread : readable = true := by
        cases readable
        · exact absurd (Or.inr rfl) hlim
        · rfl
      have hchildren : wellNamedList children = true := by
        rcases hw.2 with h | h
        · rw [hread] at h; exact absurd h (by simp)
        · exact h
      have h1' : Tracks this.startPath
          (visit pf this st { path := this.startPath ++ (P ++ [name]), isDirectory := true,
                              isRegularFile := false, depth := k })
          ((P ++ [name]) ++ []) := by simpa using h1
      obtain ⟨v, hv, _⟩ := entriesOfList_tracks pf hsep hcanon this hpre hpost hwf follow d
        children (P ++ [name]) (k + 1) _ [] hchildren h1' (by simp)
      refine ⟨name :: v, ?_, by simp [Node.name]⟩
      simpa [List.append_assoc] using hv
  | link name target children => simp [Node.wellNamed] at hw
theorem entriesOfList_tracks (pf : Platform)
    (hsep : pf.preferred_separator = '/' ∨ pf.preferred_separator = '\\')
    (hcanon : ∀ p, pf.weakly_canonical p = p)
    (this : LOCScanner) (hpre : this.preDirectoryCallback = true)
    (hpost : this.postDirectoryCallback = true) (hwf : WellFormedFilters pf this)
    (follow : Bool) (d : Nat) (ns : List Node) (P : List Name)
    (k : Nat) (st : WalkState) (u : List Name) (hw : wellNamedList ns = true)
    (ht : Tracks this.startPath st (P ++ u)) (hhead : ∀ m ∈ ns, u.head? ≠ some m.name) :
    ∃ v, Tracks this.startPath
        ((entriesOfList follow d (this.startPath ++ P) k ns).foldl (visit pf this) st)
        (P ++ v) ∧
      ∀ y, v.head? = some y → u.head? = some y ∨ ∃ m ∈ ns, m.name = y := by
  cases ns with
  | nil => exact ⟨u, by simpa [entriesOfList] using ht, fun y hy => Or.inl hy⟩
  | cons n ns =>
    simp only [wellNamedList, Bool.and_eq_true, List.all_eq_true, bne_iff_ne, ne_eq] at hw
    obtain ⟨⟨hn, hdistinct⟩, hrest⟩ := hw
    obtain ⟨v1, hv1, hhead1⟩ := entriesOfNode_tracks pf hsep hcanon this hpre hpost hwf follow
      d n P k st u hn ht (hhead n (List.mem_cons_self _ _))
    obtain ⟨v, hv, hheadv⟩ := entriesOfList_tracks pf hsep hcanon this hpre hpost hwf follow
      d ns P k _ v1 hrest hv1 (by
        intro m hm hv1m
        exact hdistinct m hm (hhead1 _ hv1m))
    refine ⟨v, by simpa [entriesOfList, List.foldl_append] using hv, ?_⟩
    intro y hy
    rcases hheadv y hy with h | ⟨m, hm, hmy⟩
    · exact Or.inr ⟨n, List.mem_cons_self _ _, (hhead1 y h).symm⟩
    · exact Or.inr ⟨m, List.mem_cons_of_mem _ hm, hmy⟩
end

/-- Replaying balanced calls: enters and leaves of each path, together with
what was open before and after, add up. -/
theorem replay_count (evs : List Event) (stack stack' : List Path) (p : Path)
    (h : replay stack evs = some stack') :
    evs.count (Event.preDirectory p) + stack.count p =
      evs.count (Event.postDirectory p) + stack'.count p := by
  induction evs generalizing stack with
  | nil =>
    have : stack = stack' := by cases stack <;> simpa [replay] using h
    simp [this]
  | cons e es ih =>
    cases e with
    | preDirectory q =>
      have hrec : replay (q :: stack) es = some stack' := by
        cases stack <;> simpa [replay] using h
      have := ih _ hrec
      by_cases hq : q = p
      · subst hq
        simp only [List.count_cons_self] at this ⊢
        simp only [List.count_cons, beq_iff_eq, reduceCtorEq, if_false] at this ⊢
        omega
      · have hq' : ¬ (Event.preDirectory q = Event.preDirectory p) := by
          intro hh; exact hq (Event.preDirectory.inj hh)
        simp only [List.count_cons, beq_iff_eq, hq, hq', reduceCtorEq, if_false] at this ⊢
        omega
    | postDirectory q =>
      cases stack with
      | nil => simp [replay] at h
      | cons t stack =>
        by_cases hqt : q = t
        · subst hqt
          have hrec : replay stack es = some stack' := by simpa [replay] using h
          have := ih _ hrec
          by_cases hq : q = p
          · subst hq
            simp only [List.count_cons, beq_iff_eq, reduceCtorEq, if_false, if_true] at this ⊢
            omega
          · have hq' : ¬ (Event.postDirectory q = Event.postDirectory p) := by
              intro hh; exact hq (Event.postDirectory.inj hh)
            simp only [List.count_cons, beq_iff_eq, hq, hq', reduceCtorEq, if_false] at this ⊢
            omega
        · simp [replay, hqt] at h
    | file r =>
      have hrec : replay stack es = some stack' := by
        cases stack <;> simpa [replay] using h
      have := ih _ hrec
      simp only [List.count_cons, beq_iff_eq, reduceCtorEq, if_false] at this ⊢
      omega

theorem leaveLoop_extends (fs : List (List Char)) (st : WalkState) :
    ∃ new, (leaveLoop st fs).events = st.events ++ new := by
  induction fs generalizing st with
  | nil => exact ⟨[], by simp [leaveLoop]⟩
  | cons f fs ih =>
    by_cases hf : f = dotdot
    · subst hf
      rw [leaveLoop_cons_dotdot]
      obtain ⟨new, hnew⟩ := ih
        { st with events := st.events ++ [Event.postDirectory st.currentDirectory],
                  currentDirectory := parent_path st.currentDirectory }
      exact ⟨Event.postDirectory st.currentDirectory :: new, by simp [hnew]⟩
    · obtain ⟨new, hnew⟩ := ih st
      refine ⟨new, ?_⟩
      unfold leaveLoop at hnew ⊢
      simpa only [List.foldl_cons, hf, if_false] using hnew

theorem visit_extends (pf : Platform) (this : LOCScanner) (st : WalkState) (e : DirEntry) :
    ∃ new, (visit pf this st e).events = st.events ++ new := by
  have htrack : ∃ new, (trackDirectory pf this st e).events = st.events ++ new := by
    unfold trackDirectory
    by_cases hp : this.postDirectoryCallback = true
    · simp only [hp, if_true]
      exact leaveLoop_extends _ st
    · simp only [hp]
      exact ⟨[], by simp⟩
  obtain ⟨new, hnew⟩ := htrack
  unfold visit
  simp only
  split_ifs
  · exact ⟨[], by simp⟩
  · exact ⟨new ++ [Event.preDirectory e.path], by simp [hnew]⟩
  · exact ⟨new, hnew⟩
  · split
    · exact ⟨new, hnew⟩
    · exact ⟨new ++ [Event.file (relativeString pf this e)], by simp [hnew]⟩
    · exact ⟨new, hnew⟩
  · exact ⟨new, hnew⟩

theorem foldl_visit_extends (pf : Platform) (this : LOCScanner) (es : List DirEntry)
    (st : WalkState) : ∃ new, (es.foldl (visit pf this) st).events = st.events ++ new := by
  induction es generalizing st with
  | nil => exact ⟨[], by simp⟩
  | cons e es ih =>
    obtain ⟨n1, h1⟩ := visit_extends pf this st e
    obtain ⟨n2, h2⟩ := ih (visit pf this st e)
    exact ⟨n1 ++ n2, by rw [List.foldl_cons, h2, h1, List.append_assoc]⟩

/-- The calls of a whole run on a well-named tree, with filters that do not
throw and no symbolic links to resolve, replay to an empty stack; the first
call is the enter of the root and the last call is the leave of the root. -/
theorem walk_replay (pf : Platform)
    (hsep : pf.preferred_separator = '/' ∨ pf.preferred_separator = '\\')
    (hcanon : ∀ p, pf.weakly_canonical p = p)
    (this : LOCScanner) (hpre : this.preDirectoryCallback = true)
    (hpost : this.postDirectoryCallback = true) (hwf : WellFormedFilters pf this)
    (root : List Node) (hw : wellNamedList root = true) :
    (walk pf this root).thrown = false ∧
      replay [] (walk pf this root).events = some [] ∧
      (walk pf this root).events.getLast? = some (Event.postDirectory this.startPath) ∧
      (walk pf this root).events.head? = some (Event.preDirectory this.startPath) := by
  have h0 : Tracks this.startPath
      { currentDirectory := this.startPath, matched := 0,
        events := [Event.preDirectory this.startPath], thrown := false } ([] ++ []) := by
    simp [Tracks, replay, openStack]
  obtain ⟨v, ⟨hthrown, hc, hr⟩, _⟩ := entriesOfList_tracks pf hsep hcanon this hpre hpost hwf
    this.bFollowLinks this.maxDepth root [] 0 _ [] hw h0 (by simp)
  obtain ⟨s', hrel, hnd, hsf⟩ := lexically_relative_shape [] v (Or.inl rfl)
  have hfn : splitFilenames (separatorReplace (pf.string (pf.relative this.startPath
      (this.startPath ++ ([] ++ v))))) = List.replicate v.length dotdot ++ s' := by
    have := lexically_relative_common this.startPath [] ([] ++ v)
    simp only [List.append_nil, List.nil_append, Platform.relative, hcanon] at this ⊢
    rw [this, hrel, filenames_eq pf hsep]
    intro c hcm
    rcases List.mem_append.mp hcm with h | h
    · rw [List.eq_of_mem_replicate h]; exact sepFree_dotdot
    · exact hsf c h
  have hpop := leaveLoop_pops this.startPath [] s' hnd v _ hc hr
  have hlt := leaveLoop_thrown (List.replicate v.length dotdot ++ s')
    (List.foldl (visit pf this)
      { currentDirectory := this.startPath, matched := 0,
        events := [Event.preDirectory this.startPath], thrown := false }
      (entriesOfList this.bFollowLinks this.maxDepth (this.startPath ++ []) 0 root))
  simp only [List.append_nil] at h0 hthrown hc hr hpop hlt
  unfold walk visited
  simp only [hpre, if_true, leaveRemaining, hpost, hthrown, Bool.false_eq_true, if_false]
  rw [hc, hfn]
  refine ⟨by rw [hlt, hthrown], ?_, by simp, ?_⟩
  · simp only [replay_append, hpop.2, Option.some_bind, openStack]
    simp [replay]
  · obtain ⟨n1, h1⟩ := foldl_visit_extends pf this
      (entriesOfList this.bFollowLinks this.maxDepth this.startPath 0 root)
      { currentDirectory := this.startPath, matched := 0,
        events := [Event.preDirectory this.startPath], thrown := false }
    obtain ⟨n2, h2⟩ := leaveLoop_extends (List.replicate v.length dotdot ++ s')
      (List.foldl (visit pf this)
        { currentDirectory := this.startPath, matched := 0,
          events := [Event.preDirectory this.startPath], thrown := false }
        (entriesOfList this.bFollowLinks this.maxDepth this.startPath 0 root))
    rw [h2, h1]
    simp

/-! ## What `matchFiles` does where the separator normalisation is harmless -/

/-- For a tree without symbolic links whose directory names are free of
separators (the names of files are arbitrary), with both directory callbacks
registered and filters that do not throw, `matchFiles` returns and its enter
and leave calls are balanced: replayed on a stack every leave names the
innermost open directory and nothing stays open, the first call is the enter
of the root, the last call is the leave of the root, and every path gets as
many leaves as enters. -/
theorem stack_discipline (pf : Platform)
    (hsep : pf.preferred_separator = '/' ∨ pf.preferred_separator = '\\')
    (hcanon : ∀ p, pf.weakly_canonical p = p)
    (this : LOCScanner) (hpre : this.preDirectoryCallback = true)
    (hpost : this.postDirectoryCallback = true) (hwf : WellFormedFilters pf this)
    (root : List Node) (hnames : wellNamedList root = true) (ec : Bool) :
    (matchFiles pf this (some root) ec).returned ≠ none ∧
      replay [] (matchFiles pf this (some root) ec).events = some [] ∧
      (matchFiles pf this (some root) ec).events.head? =
        some (Event.preDirectory this.startPath) ∧
      (matchFiles pf this (some root) ec).events.getLast? =
        some (Event.postDirectory this.startPath) ∧
      ∀ p, (matchFiles pf this (some root) ec).events.count (Event.preDirectory p) =
        (matchFiles pf this (some root) ec).events.count (Event.postDirectory p) := by
  obtain ⟨h0, h1, h2, h3⟩ := walk_replay pf hsep hcanon this hpre hpost hwf root hnames
  refine ⟨by simp [matchFiles, h0], h1, h3, h2, ?_⟩
  intro p
  simpa using replay_count _ _ _ p h1

/-- The depth gate of line 144: the depth of an entry is the number of
directories between the root and the entry; with `maxDepth >= 1` the loop
visits the reachable entries of depth at most `maxDepth`, without a limit all
of them; with filters that do not throw every call of the file callback is
made at a visited regular-file entry, and every visited directory entry, one
at the limit included, gets its enter call. -/
theorem depth_gate (pf : Platform) (this : LOCScanner) (root : List Node) (ec : Bool)
    (hwf : WellFormedFilters pf this) :
    (∀ e ∈ reachable this root,
      ∃ rel, e.path = this.startPath ++ rel ∧ rel.length = e.depth + 1) ∧
    (1 ≤ this.maxDepth →
      visited this root =
        (reachable this root).filter (fun e => decide (e.depth ≤ this.maxDepth))) ∧
    (this.maxDepth = 0 → visited this root = reachable this root) ∧
    (∀ p ∈ fileCalls (matchFiles pf this (some root) ec).events,
      ∃ e ∈ visited this root, e.isRegularFile = true ∧ p = relativeString pf this e) ∧
    (this.preDirectoryCallback = true →
      preCalls (matchFiles pf this (some root) ec).events = this.startPath ::
        ((visited this root).filter (fun e => e.isDirectory)).map DirEntry.path) := by
  obtain ⟨_, hfile, hpre⟩ := walk_calls pf this root
    (fun e _ => fileThrows_wellFormed pf this e hwf)
  have hvis := visited_eq this root
  refine ⟨?_, ?_, ?_, ?_, ?_⟩
  · intro e he
    obtain ⟨_, rel, h1, h2⟩ := allEntriesOfList_depth _ this.startPath 0 root e he
    exact ⟨rel, h1, by simpa using h2⟩
  · intro hd
    rw [hvis, if_neg (by omega)]
  · intro h0
    rw [hvis, if_pos h0]
  · intro p hp
    simp only [matchFiles, hfile, List.mem_map, List.mem_filter] at hp
    obtain ⟨e, ⟨he, hcalled⟩, rfl⟩ := hp
    simp only [fileCalled, Bool.and_eq_true] at hcalled
    exact ⟨e, he, hcalled.1.1.2, rfl⟩
  · intro hp
    simp only [matchFiles, hpre]
    simp [hp]

/-- The filter test of lines 191-199: with filters that do not throw the
calls of the file callback are, in order, the normalised relative paths of
the visited entries at which the test succeeds; at a regular file whose
normalised relative path has no two adjacent slashes the test succeeds
exactly when the filter lists accept that path. -/
theorem filter_decision (pf : Platform) (this : LOCScanner) (root : List Node) (ec : Bool)
    (hwf : WellFormedFilters pf this) (hcb : this.fileCallback = true) :
    fileCalls (matchFiles pf this (some root) ec).events =
        ((visited this root).filter (fileCalled pf this)).map (relativeString pf this) ∧
      ∀ e : DirEntry, e.isDirectory = false → e.isRegularFile = true →
        hasAdjacentSlashes (relativeString pf this e) = false →
        fileCalled pf this e = accepts pf this (relativeString pf this e) := by
  refine ⟨(walk_calls pf this root (fun e _ => fileThrows_wellFormed pf this e hwf)).2.1, ?_⟩
  intro e hdir hreg hclean
  have hp := separatorReplace_idem _ hclean
  simp only [relativeString] at hp
  simp [fileCalled, hdir, hreg, hcb, passesFilters_wellFormed pf this _ hwf, relativeString, hp]

/-! ## The claims about the scanner and the driver -/

/-- C3 (code bug): on the witness file `"a b\nc"` the scanner yields `loc = 2`
and `words = 3` but `chars = 2`, although the file has 3 non-whitespace bytes:
the newline branch (lines 371-378) resets `charCount` without adding it to
`chars`, so the `b` directly before the newline is never counted. -/
theorem C3_chars_dropped_before_newline :
    (scanStream 16384 sampleABC).result = (2, 3, 2) ∧
    (scanBytes sampleABC).result = (2, 3, 2) ∧
    nonWhitespaceCount sampleABC = 3 ∧ sampleABC.length = 5 := by
  decide

/-- C4: for every byte sequence (a file, so shorter than `2 ^ 64` bytes) the
`loc` produced by the scanner is the number of newline-separated segments,
the one after the last newline included, that hold a non-whitespace byte; a
sequence of whitespace bytes only, such as the empty one or `"   \n\n  "`,
yields `loc = 0`, `words = 0` and `chars = 0`. -/
theorem C4_loc_counts_nonblank_segments (bs : List Byte) (hlen : bs.length < 2 ^ 64) :
    (scanStream 16384 bs).loc = nonBlankLineCount bs ∧
    ((∀ c ∈ bs, isspace c = true) → (scanStream 16384 bs).result = (0, 0, 0)) ∧
    (scanStream 16384 []).result = (0, 0, 0) ∧
    (scanStream 16384 sampleBlank).result = (0, 0, 0) := by
  have hs := scanStream_eq 16384 (by norm_num) bs hlen
  have hi := scanBytes_eq_ideal bs hlen
  refine ⟨?_, ?_, by decide, by decide⟩
  · rw [hs, hi, ideal_loc]
    simpa [ScanState.init] using linesFrom_eq bs
  · intro hblank
    rw [hs, hi, ideal_blank bs _ hblank rfl rfl]
    rfl

/-- Witness of C4 on the whitespace-only file `"   \n\n  "`. -/
theorem C4_witness :
    sampleBlank.length < 2 ^ 64 ∧
    ((scanStream 16384 sampleBlank).loc = nonBlankLineCount sampleBlank ∧
    ((∀ c ∈ sampleBlank, isspace c = true) →
      (scanStream 16384 sampleBlank).result = (0, 0, 0)) ∧
    (scanStream 16384 []).result = (0, 0, 0) ∧
    (scanStream 16384 sampleBlank).result = (0, 0, 0)) :=
  ⟨by decide, C4_loc_counts_nonblank_segments sampleBlank (by decide)⟩

/-- C5: for every byte sequence (a file, so shorter than `2 ^ 64` bytes) the
`words` produced by the scanner is the number of maximal runs of consecutive
non-whitespace bytes. -/
theorem C5_words_counts_runs (bs : List Byte) (hlen : bs.length < 2 ^ 64) :
    (scanStream 16384 bs).words = wordRunCount bs := by
  rw [scanStream_eq 16384 (by norm_num) bs hlen, scanBytes_eq_ideal bs hlen, ideal_words]
  simpa [ScanState.init] using wordsFrom_eq bs

/-- Witness of C5 on the file `"a b\nc"`: three runs, three words. -/
theorem C5_witness :
    sampleABC.length < 2 ^ 64 ∧ (scanStream 16384 sampleABC).words = wordRunCount sampleABC ∧
    wordRunCount sampleABC = 3 :=
  ⟨by decide, C5_words_counts_runs sampleABC (by decide), by decide⟩

/-- C6: for every byte sequence and every way of cutting it into consecutive
chunks, running the per-byte loop chunk after chunk with all counters carried
over and then the flush gives the same state, hence the same
`(loc, words, chars)`, as handing over the whole sequence as one chunk; the
read loop of the program itself, with any positive chunk size (1 or 16384,
say), gives that state as well. -/
theorem C6_chunking_is_irrelevant (chunks : List (List Byte)) :
    scanChunks chunks = scanChunks [chunks.flatten] ∧
    (scanChunks chunks).result = (scanBytes chunks.flatten).result ∧
    (∀ numBytes : Nat, 0 < numBytes → chunks.flatten.length < 2 ^ 64 →
      scanStream numBytes chunks.flatten = scanBytes chunks.flatten) := by
  refine ⟨scanChunks_flatten chunks, by rw [scanChunks_flatten], ?_⟩
  intro numBytes hn hlen
  exact scanStream_eq numBytes hn _ hlen

/-- Witness of C6: `"a b\nc"` cut as `"a "`, `"b\nc"`, and read one byte or
16384 bytes at a time. -/
theorem C6_witness :
    scanChunks [[97, 32], [98, 10, 99]] = scanChunks [sampleABC] ∧
    scanStream 1 sampleABC = scanStream 16384 sampleABC := by
  have h := C6_chunking_is_irrelevant [[97, 32], [98, 10, 99]]
  have e : ([[97, 32], [98, 10, 99]] : List (List Byte)).flatten = sampleABC := by decide
  rw [e] at h
  exact ⟨h.1, (h.2.2 1 (by decide) (by decide)).trans (h.2.2 16384 (by decide) (by decide)).symm⟩

/-- C10: for every list of matched, openable files (path and content; the byte
size is the length of the content) whose number and total size stay below
`2 ^ 64`, the driver ends with `totalFiles` = number of files, `totalBytes` =
sum of the sizes, `totalLOC` / `totalWords` / `totalChars` = sums of the
scanner's per-file results, and a directory count equal to the number of
distinct parent paths. -/
theorem C10_driver_totals {P D : Type} [DecidableEq D] (parent_path : P → D)
    (files : List (P × List Byte)) (hfiles : files.length < 2 ^ 64)
    (hbytes : (files.map (fun f => f.2.length)).sum < 2 ^ 64) :
    (runDriver parent_path files).totalFiles = files.length ∧
    (runDriver parent_path files).totalBytes = (files.map (fun f => f.2.length)).sum ∧
    (runDriver parent_path files).totalLOC =
      (files.map (fun f => (scanStream 16384 f.2).loc)).sum ∧
    (runDriver parent_path files).totalWords =
      (files.map (fun f => (scanStream 16384 f.2).words)).sum ∧
    (runDriver parent_path files).totalChars =
      (files.map (fun f => (scanStream 16384 f.2).chars)).sum ∧
    (runDriver parent_path files).directories =
      (files.map (fun f => parent_path f.1)).toFinset.card := by
  have h := foldl_onFile parent_path files (Totals.init D) (by simp [Totals.init])
    (by simpa [Totals.init] using hfiles) (by simpa [Totals.init] using hbytes)
    (by simp [Totals.init]) (by simp [Totals.init]) (by simp [Totals.init])
  simp only [Totals.init, Nat.zero_add, List.map_nil, List.toFinset_nil,
    Finset.empty_union] at h
  obtain ⟨r1, r2, r3, r4, r5, r6, r7⟩ := h
  refine ⟨r1, r2, r3, r4, r5, ?_⟩
  unfold Totals.directories runDriver
  rw [← r7, List.toFinset_card_of_nodup r6, List.length_map]
  rfl

/-- Witness of C10: the tree with `a.txt` (10 bytes, 2 lines) and `sub/b.txt`
(5 bytes, 1 line) gives 2 files, 2 directories, 15 bytes and 3 lines. -/
theorem C10_witness :
    (runDriver List.dropLast sampleFiles).totalFiles = 2 ∧
    (runDriver List.dropLast sampleFiles).directories = 2 ∧
    (runDriver List.dropLast sampleFiles).totalBytes = 15 ∧
    (runDriver List.dropLast sampleFiles).totalLOC = 3 := by
  obtain ⟨r1, r2, r3, _, _, r6⟩ :=
    C10_driver_totals List.dropLast sampleFiles (by decide) (by decide)
  refine ⟨r1.trans (by decide), r6.trans (by decide), r2.trans (by decide),
    r3.trans (by decide)⟩


/-! ## The claims about `matchFiles` -/

/-- C8 (code bug): the one-pass replacement of `\\+|\/\/+` by `/` turns
`a/\b` into `a//b`: a backslash run next to a single slash is not merged with
it, so the result has two adjacent slashes; only a second pass gives `a/b`. -/
theorem C8_mixed_separators_stay_doubled :
    separatorReplace "a/\\b".toList = "a//b".toList ∧
    hasAdjacentSlashes (separatorReplace "a/\\b".toList) = true ∧
    separatorReplace (separatorReplace "a/\\b".toList) = "a/b".toList := by
  decide

/-- C1 (code bug): on POSIX, for the regular file named `\b` in the directory
`a`, the normalised relative path is `a//b` (the slip of C8), while
`doesPathMatchFilters` normalises once more and tests the filters on `a/b`.
With the exclusion filter `a//b` the file callback is called on `a//b`, a path
that full-matches an exclusion filter; with the exclusion filter `a/b`, which
`a//b` does not full-match, the callback is not called. -/
theorem C1_filters_tested_on_other_path :
    matchFiles posix excludingScanner (some backslashFileTree) true =
      { returned := some 1,
        events := [Event.preDirectory sampleStart,
          Event.preDirectory (sampleStart ++ ["a".toList]),
          Event.file "a//b".toList,
          Event.postDirectory (sampleStart ++ ["a".toList]),
          Event.postDirectory sampleStart] } ∧
    excludingScanner.exclusionFilters = ["a//b".toList] ∧
    fullMatches posix "a//b".toList "a//b".toList = true ∧
    matchFiles posix slashScanner (some backslashFileTree) true =
      { returned := some 0,
        events := [Event.preDirectory sampleStart,
          Event.preDirectory (sampleStart ++ ["a".toList]),
          Event.postDirectory (sampleStart ++ ["a".toList]),
          Event.postDirectory sampleStart] } ∧
    slashScanner.exclusionFilters = ["a/b".toList] ∧
    slashScanner.inclusionFilters = [] ∧
    fullMatches posix "a//b".toList "a/b".toList = false := by
  decide

/-- C2 (code bug): on POSIX the directory name `..\x` is legal (it has no
`'/'` and is neither `"."` nor `".."`), yet for a root that holds just this
empty directory the calls are enter(root), leave(root), enter(`..\x`),
leave(`..\x`), leave(root): the backslash is replaced by `'/'` before the
relative path is split, the piece `".."` is taken for a step upwards, the
root is left before the directory is entered and is left twice, and the
sequence does not replay on a stack. -/
theorem C2_root_left_twice :
    matchFiles posix sampleScanner (some backslashDirTree) true =
      { returned := some 0,
        events := [Event.preDirectory sampleStart,
          Event.postDirectory sampleStart,
          Event.preDirectory (sampleStart ++ ["..\\x".toList]),
          Event.postDirectory (sampleStart ++ ["..\\x".toList]),
          Event.postDirectory sampleStart] } ∧
    replay [] (matchFiles posix sampleScanner (some backslashDirTree) true).events = none ∧
    (matchFiles posix sampleScanner (some backslashDirTree) true).events.count
      (Event.postDirectory sampleStart) = 2 ∧
    '/' ∉ "..\\x".toList ∧ "..\\x".toList ≠ dot ∧ "..\\x".toList ≠ dotdot ∧
    sampleScanner.preDirectoryCallback = true ∧
    sampleScanner.postDirectoryCallback = true := by
  decide

end LOCScanner
